import Mathlib

/-!
# Verification of the Glow-Dot-Art geometry pipeline

A shallow embedding of the SVG-to-dots processing pipeline of this repository
(`src/services/svgProcessor.ts`, together with the coordinate serializer and
deserializer of the dot-preview component) and proofs about it.

Modelling conventions:
* JavaScript numbers are modelled as exact rationals (`ℚ`); floating-point
  rounding is outside the model.
* `getPerpendicularDistance` returns `Math.sqrt` of a rational quantity.  We
  keep the squared quantity (`perpDistSq`) and model every comparison on the
  square root by its exact rational characterization: for `0 ≤ d²`,
  `Math.sqrt d² > e` holds iff `e < 0 ∨ d² > e·e`, and
  `Math.sqrt d₁² > Math.sqrt d₂²` holds iff `d₁² > d₂²`.
* The recursion of `ramerDouglasPeucker` is not structurally decreasing on all
  inputs (for a negative tolerance the source recurses on its unchanged input
  and never returns), so it is embedded with an explicit fuel parameter;
  `none` models a run that exceeds every amount of fuel, i.e. a call that
  never returns.
-/

abbrev Point : Type := ℚ × ℚ

/-- The projection parameter `t` of `getPerpendicularDistance`
(svgProcessor.ts, line 15): the scalar position of the orthogonal projection
of `pt` onto the chord from `lineStart` to `lineEnd`. -/
def perpT (pt lineStart lineEnd : Point) : ℚ :=
  ((pt.1 - lineStart.1) * (lineEnd.1 - lineStart.1) +
      (pt.2 - lineStart.2) * (lineEnd.2 - lineStart.2)) /
    ((lineEnd.1 - lineStart.1) * (lineEnd.1 - lineStart.1) +
      (lineEnd.2 - lineStart.2) * (lineEnd.2 - lineStart.2))

/-- Embedding of `getPerpendicularDistance` (svgProcessor.ts, lines 5–28),
except that the final `Math.sqrt` is not applied: this is the *square* of the
value the source returns.  The branch structure, the projection parameter `t`
and its clamping are exactly those of the source. -/
def perpDistSq (pt lineStart lineEnd : Point) : ℚ :=
  let dx := lineEnd.1 - lineStart.1
  let dy := lineEnd.2 - lineStart.2
  if dx = 0 ∧ dy = 0 then
    (pt.1 - lineStart.1) * (pt.1 - lineStart.1) + (pt.2 - lineStart.2) * (pt.2 - lineStart.2)
  else
    let t := perpT pt lineStart lineEnd
    let nearest : Point :=
      if t < 0 then lineStart
      else if 1 < t then lineEnd
      else (lineStart.1 + t * dx, lineStart.2 + t * dy)
    (pt.1 - nearest.1) * (pt.1 - nearest.1) + (pt.2 - nearest.2) * (pt.2 - nearest.2)

/-- Exact rational characterization of `Math.sqrt dSq > eps` for `0 ≤ dSq`:
true when `eps` is negative (a square root is never negative), otherwise
equivalent to `dSq > eps²`. -/
def sqrtGt (dSq eps : ℚ) : Bool :=
  if eps < 0 then true else decide (eps * eps < dSq)

/-- The maximum-distance loop of `ramerDouglasPeucker` (svgProcessor.ts,
lines 35–45): starting from `dmax = 0, index = 0`, scan the interior indices
`1 .. points.length − 2` and record the strictly largest squared distance to
the chord and its index.  Comparing squared distances is equivalent to the
source's comparison of the square roots, both being nonnegative. -/
def maxInterior (points : List Point) : ℚ × ℕ :=
  (List.range' 1 (points.length - 2)).foldl
    (fun acc i =>
      let d := perpDistSq (points.getD i (0, 0)) (points.getD 0 (0, 0))
        (points.getD (points.length - 1) (0, 0))
      if acc.1 < d then (d, i) else acc)
    (0, 0)

/-- Fuelled embedding of `ramerDouglasPeucker` (svgProcessor.ts, lines 30–54).
`points.slice(0, index+1)` is `take (index+1)`, `points.slice(index)` is
`drop index`, and `recResults1.slice(0, recResults1.length-1)` is
`dropLast`.  `none` means the recursion did not finish within `fuel` steps. -/
def rdpFuel : ℕ → List Point → ℚ → Option (List Point)
  | 0, _, _ => none
  | fuel + 1, points, epsilon =>
    if points.length < 3 then some points
    else
      let dm := maxInterior points
      if sqrtGt dm.1 epsilon then
        match rdpFuel fuel (points.take (dm.2 + 1)) epsilon,
              rdpFuel fuel (points.drop dm.2) epsilon with
        | some r1, some r2 => some (r1.dropLast ++ r2)
        | _, _ => none
      else
        some [points.headD (0, 0), points.getLastD (0, 0)]

/-- `ramerDouglasPeucker`, run with enough fuel for every terminating input:
the recursion depth of the source is bounded by the length of the list (each
recursive call is on a strictly shorter slice whenever it terminates at all),
so `length + 1` units of fuel are sufficient; `none` therefore models a call
of the source that never returns. -/
def ramerDouglasPeucker (points : List Point) (epsilon : ℚ) : Option (List Point) :=
  rdpFuel (points.length + 1) points epsilon

/-! ## Properties of the simplifier -/

/-- Invariant of the maximum-search loop: the accumulator is either the
initial `(0, 0)` or records a strictly positive value at an index drawn from
the scanned list. -/
lemma foldlMax_inv (d : ℕ → ℚ) (P : ℕ → Prop) :
    ∀ (l : List ℕ) (acc : ℚ × ℕ), (∀ i ∈ l, P i) →
      (acc = (0, 0) ∨ (0 < acc.1 ∧ P acc.2)) →
      (l.foldl (fun acc i => if acc.1 < d i then (d i, i) else acc) acc) = (0, 0) ∨
        (0 < (l.foldl (fun acc i => if acc.1 < d i then (d i, i) else acc) acc).1 ∧
          P (l.foldl (fun acc i => if acc.1 < d i then (d i, i) else acc) acc).2) := by
  intro l
  induction l with
  | nil => intro acc _ hacc; simpa using hacc
  | cons j t ih =>
    intro acc hmem hacc
    simp only [List.foldl_cons]
    apply ih
    · exact fun i hi => hmem i (List.mem_cons_of_mem j hi)
    · by_cases hlt : acc.1 < d j
      · rw [if_pos hlt]
        right
        refine ⟨?_, hmem j (List.mem_cons_self j t)⟩
        rcases hacc with h0 | ⟨hpos, _⟩
        · rw [h0] at hlt; simpa using hlt
        · exact lt_trans hpos hlt
      · rw [if_neg hlt]; exact hacc

/-- The result of `maxInterior` is either the untouched initial accumulator
`(0, 0)` or a strictly positive distance at a genuine interior index. -/
lemma maxInterior_cases (pts : List Point) :
    maxInterior pts = (0, 0) ∨
      (0 < (maxInterior pts).1 ∧ 1 ≤ (maxInterior pts).2 ∧
        (maxInterior pts).2 + 1 < pts.length) := by
  have := foldlMax_inv
    (fun i => perpDistSq (pts.getD i (0, 0)) (pts.getD 0 (0, 0))
      (pts.getD (pts.length - 1) (0, 0)))
    (fun i => 1 ≤ i ∧ i + 1 < pts.length)
    (List.range' 1 (pts.length - 2)) (0, 0)
    (fun i hi => by
      rw [List.mem_range'_1] at hi
      omega)
    (Or.inl rfl)
  rcases this with h | ⟨h1, h2, h3⟩
  · exact Or.inl h
  · exact Or.inr ⟨h1, h2, h3⟩

/-- Termination: for a nonnegative tolerance the recursion finishes within
`length + 1` units of fuel (each recursive call is on a strictly shorter
slice, because a positive `dmax` is found at a genuine interior index). -/
lemma rdpFuel_isSome (eps : ℚ) (heps : 0 ≤ eps) :
    ∀ (fuel : ℕ) (pts : List Point), pts.length < fuel →
      (rdpFuel fuel pts eps).isSome = true := by
  intro fuel
  induction fuel with
  | zero => intro pts h; omega
  | succ fuel ih =>
    intro pts hlen
    rw [rdpFuel]
    by_cases h3 : pts.length < 3
    · rw [if_pos h3]; rfl
    · rw [if_neg h3]
      simp only []
      by_cases hg : sqrtGt (maxInterior pts).1 eps = true
      · rw [if_pos hg]
        have hpos : 0 < (maxInterior pts).1 := by
          unfold sqrtGt at hg
          rw [if_neg (not_lt.mpr heps)] at hg
          have := of_decide_eq_true hg
          nlinarith [mul_self_nonneg eps]
        rcases maxInterior_cases pts with h0 | ⟨_, hi1, hi2⟩
        · rw [h0] at hpos; simp at hpos
        · have ht : (rdpFuel fuel (pts.take ((maxInterior pts).2 + 1)) eps).isSome = true := by
            apply ih
            rw [List.length_take]
            omega
          have hd : (rdpFuel fuel (pts.drop (maxInterior pts).2) eps).isSome = true := by
            apply ih
            rw [List.length_drop]
            omega
          rcases Option.isSome_iff_exists.mp ht with ⟨r1, hr1⟩
          rcases Option.isSome_iff_exists.mp hd with ⟨r2, hr2⟩
          rw [hr1, hr2]
          rfl
      · rw [if_neg hg]; rfl

/-- `getLast?` is unchanged by dropping an initial segment that does not
reach the end of the list. -/
lemma getLast?_drop_of_lt {α : Type} :
    ∀ (l : List α) (i : ℕ), i < l.length → (l.drop i).getLast? = l.getLast? := by
  intro l
  induction l with
  | nil => intro i h; simp at h
  | cons a t ih =>
    intro i h
    cases i with
    | zero => rfl
    | succ i =>
      simp only [List.drop_succ_cons]
      rw [ih i (by simpa using h)]
      rcases t with _ | ⟨b, t2⟩
      · simp at h
      · rw [List.getLast?_cons_cons]

/-- Partial correctness of the simplifier, for *every* tolerance: whenever a
call returns, the result is a sublist of the input, has the same first and
last elements, and has at least two points whenever the input does. -/
lemma rdpFuel_spec :
    ∀ (fuel : ℕ) (pts out : List Point) (eps : ℚ), rdpFuel fuel pts eps = some out →
      List.Sublist out pts ∧ (2 ≤ pts.length → 2 ≤ out.length) ∧
        out.head? = pts.head? ∧ out.getLast? = pts.getLast? := by
  intro fuel
  induction fuel with
  | zero => intro pts out eps h; simp [rdpFuel] at h
  | succ fuel ih =>
    intro pts out eps h
    rw [rdpFuel] at h
    by_cases h3 : pts.length < 3
    · rw [if_pos h3] at h
      cases h
      exact ⟨List.Sublist.refl _, fun h => h, rfl, rfl⟩
    · rw [if_neg h3] at h
      simp only [] at h
      have hne : pts ≠ [] := by
        intro hnil; rw [hnil] at h3; simp at h3
      by_cases hg : sqrtGt (maxInterior pts).1 eps = true
      · rw [if_pos hg] at h
        cases hr1 : rdpFuel fuel (pts.take ((maxInterior pts).2 + 1)) eps with
        | none => rw [hr1] at h; cases hr2 : rdpFuel fuel (pts.drop (maxInterior pts).2) eps <;>
            simp [hr2] at h
        | some r1 =>
          cases hr2 : rdpFuel fuel (pts.drop (maxInterior pts).2) eps with
          | none => rw [hr1, hr2] at h; simp at h
          | some r2 =>
            rw [hr1, hr2] at h
            have hout : out = r1.dropLast ++ r2 := by
              cases h; rfl
            obtain ⟨hsub1, hlen1, hhead1, hlast1⟩ := ih _ _ _ hr1
            obtain ⟨hsub2, hlen2, hhead2, hlast2⟩ := ih _ _ _ hr2
            rcases maxInterior_cases pts with h0 | ⟨_, hi1, hi2⟩
            · -- interior scan found nothing: the split index is 0, the first
              -- slice is the singleton `[points[0]]`, the second the whole list
              have hI : (maxInterior pts).2 = 0 := by rw [h0]
              rw [hI] at hsub1 hsub2 hlen2 hhead1 hhead2 hlast2
              simp only [List.drop_zero] at hsub2 hlen2 hhead2 hlast2
              rcases pts with _ | ⟨a, t⟩
              · exact absurd rfl hne
              · simp only [zero_add, List.take_succ_cons, List.take_zero] at hsub1 hhead1
                have hr1eq : r1 = [a] := by
                  rcases r1 with _ | ⟨x, r1t⟩
                  · simp at hhead1
                  · have hx : x = a := by simpa using hhead1
                    subst hx
                    have hnil : List.Sublist r1t [] :=
                      List.cons_sublist_cons.mp hsub1
                    rw [List.sublist_nil.mp hnil]
                subst hr1eq
                simp only [List.dropLast_single, List.nil_append] at hout
                subst hout
                exact ⟨hsub2, hlen2, hhead2, hlast2⟩
            · -- a genuine interior split index
              set i := (maxInterior pts).2 with hidef
              have hlentake : (pts.take (i + 1)).length = i + 1 := by
                rw [List.length_take]; omega
              have hlendrop : (pts.drop i).length = pts.length - i := List.length_drop i pts
              have hr1len : 2 ≤ r1.length := by apply hlen1; omega
              have hr2len : 2 ≤ r2.length := by apply hlen2; omega
              have hr2ne : r2 ≠ [] := by
                intro hnil; rw [hnil] at hr2len; simp at hr2len
              have hdropLastne : r1.dropLast ≠ [] := by
                have hlen' : r1.dropLast.length = r1.length - 1 := List.length_dropLast r1
                intro hnil
                rw [hnil] at hlen'
                simp at hlen'
                omega
              have hilt : i < pts.length := by omega
              have hdropcons : pts.drop i = pts[i] :: pts.drop (i + 1) :=
                List.drop_eq_getElem_cons hilt
              have hr2head : r2.head? = some pts[i] := by
                rw [hhead2, hdropcons]; rfl
              obtain ⟨c, r2t, rfl⟩ : ∃ c r2t, r2 = c :: r2t := by
                rcases r2 with _ | ⟨c, r2t⟩
                · exact absurd rfl hr2ne
                · exact ⟨c, r2t, rfl⟩
              have hceq : c = pts[i] := by simpa using hr2head
              subst hceq
              have hsub2t : List.Sublist r2t (pts.drop (i + 1)) := by
                rw [hdropcons] at hsub2
                exact List.cons_sublist_cons.mp hsub2
              have htakelast : (pts.take (i + 1)).getLast? = some pts[i] := by
                rw [List.take_succ, List.getElem?_eq_getElem hilt, Option.toList_some,
                  List.getLast?_concat]
              have hr1last : r1.getLast? = some pts[i] := by rw [hlast1, htakelast]
              have hr1decomp : r1.dropLast ++ [pts[i]] = r1 :=
                List.dropLast_append_getLast? _ (by simpa using hr1last)
              have houtalt : out = r1 ++ r2t := by
                rw [hout, ← List.singleton_append, ← List.append_assoc, hr1decomp]
              refine ⟨?_, ?_, ?_, ?_⟩
              · rw [houtalt]
                have hap : List.Sublist (r1 ++ r2t)
                    (pts.take (i + 1) ++ pts.drop (i + 1)) :=
                  List.Sublist.append hsub1 hsub2t
                rwa [List.take_append_drop] at hap
              · intro _
                rw [hout, List.length_append, List.length_dropLast]
                simp only [List.length_cons]
                omega
              · rw [hout]
                have hd1 : r1.dropLast.head? = r1.head? := by
                  rcases r1 with _ | ⟨x, _ | ⟨y, t'⟩⟩
                  · simp at hr1len
                  · simp at hr1len
                  · simp
                have hd2 : (r1.dropLast ++ pts[i] :: r2t).head? = r1.dropLast.head? := by
                  rcases hdl : r1.dropLast with _ | ⟨x, t'⟩
                  · exact absurd hdl hdropLastne
                  · simp
                rw [hd2, hd1, hhead1]
                rcases pts with _ | ⟨p, t''⟩
                · exact absurd rfl hne
                · simp
              · rw [hout, List.getLast?_append_of_ne_nil _ (by simp), hlast2]
                exact getLast?_drop_of_lt pts i hilt
      · rw [if_neg hg] at h
        cases h
        rcases pts with _ | ⟨a, t⟩
        · exact absurd rfl hne
        · have htne : t ≠ [] := by
            intro hnil; rw [hnil] at h3; simp at h3
          have hgl : (a :: t).getLastD ((0 : ℚ), (0 : ℚ)) = t.getLast htne := by
            rw [List.getLastD_eq_getLast?, List.getLast?_eq_getLast _ (by simp),
              List.getLast_cons htne]
            rfl
          refine ⟨?_, ?_, ?_, ?_⟩
          · simp only [List.headD_cons]
            exact List.Sublist.cons₂ a
              (hgl ▸ List.singleton_sublist.mpr (List.getLast_mem htne))
          · intro _; simp
          · simp
          · simp only [List.headD_cons]
            rw [hgl, List.getLast?_eq_getLast (a :: t) (by simp), List.getLast_cons htne]
            simp

/-! ## Claim C1: simplification returns a subsequence, endpoints retained -/

/-- On the collinear triple `[(0,0), (1,0), (2,0)]` with tolerance `−1` the
recursion of the source never returns: every interior distance is `0`, so
`index` stays `0`, `dmax = 0 > −1` forces the recursive branch, and the
second recursive call is on the unchanged input list.  In the fuel model this
means the call is `none` at every fuel. -/
lemma rdpFuel_neg_eps_diverges :
    ∀ fuel : ℕ, rdpFuel fuel [((0:ℚ), (0:ℚ)), (1, 0), (2, 0)] (-1) = none := by
  intro fuel
  induction fuel with
  | zero => rfl
  | succ fuel ih =>
    rw [rdpFuel]
    have hmi : maxInterior [((0:ℚ), (0:ℚ)), (1, 0), (2, 0)] = (0, 0) := by
      norm_num [maxInterior, perpDistSq, perpT, List.range']
    rw [if_neg (by norm_num)]
    simp only [hmi]
    rw [if_pos (by norm_num [sqrtGt])]
    simp only [List.drop_zero, zero_add, ih]
    cases rdpFuel fuel ([((0:ℚ), (0:ℚ)), (1, 0), (2, 0)].take 1) (-1) <;> rfl

/-- **C1** (counterexample): the claim quantifies over *every* epsilon, but for
`epsilon = −1` on the exactly collinear input `[(0,0), (1,0), (2,0)]` the
source never returns at all (infinite recursion, see
`rdpFuel_neg_eps_diverges`), so no subsequence is produced.  In the fuel
model the canonical run and a run with very large fuel are both `none`. -/
theorem rdp_claim_C1_counterexample :
    ramerDouglasPeucker [((0:ℚ), (0:ℚ)), (1, 0), (2, 0)] (-1) = none ∧
    rdpFuel 1000 [((0:ℚ), (0:ℚ)), (1, 0), (2, 0)] (-1) = none :=
  ⟨rdpFuel_neg_eps_diverges _, rdpFuel_neg_eps_diverges 1000⟩

/-- **C1** (amended): for every list of points and every *nonnegative*
epsilon, `ramerDouglasPeucker` returns, its result is a subsequence of the
input, and the first and last input points are the first and last elements of
the output (stated via `head?`/`getLast?`, which also covers the empty
input). -/
theorem rdp_sublist_endpoints (points : List Point) (epsilon : ℚ)
    (heps : 0 ≤ epsilon) :
    (ramerDouglasPeucker points epsilon).isSome = true ∧
    List.Sublist ((ramerDouglasPeucker points epsilon).getD []) points ∧
    ((ramerDouglasPeucker points epsilon).getD []).head? = points.head? ∧
    ((ramerDouglasPeucker points epsilon).getD []).getLast? = points.getLast? := by
  have hs := rdpFuel_isSome epsilon heps (points.length + 1) points (by omega)
  rcases Option.isSome_iff_exists.mp hs with ⟨out, hout⟩
  have hspec := rdpFuel_spec _ _ _ _ hout
  unfold ramerDouglasPeucker
  rw [hout]
  simp only [Option.isSome_some, Option.getD_some]
  exact ⟨trivial, hspec.1, hspec.2.2.1, hspec.2.2.2⟩

/-- Witness for C1's amended theorem at a concrete input. -/
theorem rdp_sublist_endpoints_witness :
    (0:ℚ) ≤ 1 ∧
    (ramerDouglasPeucker [((0:ℚ), (0:ℚ)), (1, 0), (2, 0)] 1).isSome = true :=
  ⟨by norm_num,
    (rdp_sublist_endpoints [((0:ℚ), (0:ℚ)), (1, 0), (2, 0)] 1 (by norm_num)).1⟩

/-! ## Claim C2: collinear input collapses to the two endpoints -/

/-- `p` lies on the closed segment from `a` to `b`. -/
def OnSegment (p a b : Point) : Prop :=
  ∃ s : ℚ, 0 ≤ s ∧ s ≤ 1 ∧ p = (a.1 + s * (b.1 - a.1), a.2 + s * (b.2 - a.2))

/-- The spec's notion for C2: every triple drawn from the list is exactly
collinear (vanishing cross product). -/
def CollinearPts (pts : List Point) : Prop :=
  ∀ p ∈ pts, ∀ q ∈ pts, ∀ r ∈ pts,
    (q.1 - p.1) * (r.2 - p.2) - (q.2 - p.2) * (r.1 - p.1) = 0

/-- A point on the closed chord segment has perpendicular distance zero. -/
lemma perpDistSq_eq_zero_of_onSegment (p a b : Point) (h : OnSegment p a b) :
    perpDistSq p a b = 0 := by
  obtain ⟨s, hs0, hs1, hp⟩ := h
  subst hp
  simp only [perpDistSq]
  by_cases hd : b.1 - a.1 = 0 ∧ b.2 - a.2 = 0
  · rw [if_pos hd]
    rw [hd.1, hd.2]
    ring
  · rw [if_neg hd]
    have hden : (b.1 - a.1) * (b.1 - a.1) + (b.2 - a.2) * (b.2 - a.2) ≠ 0 := by
      rcases not_and_or.mp hd with h1 | h2
      · have := mul_self_pos.mpr h1
        nlinarith [mul_self_nonneg (b.2 - a.2)]
      · have := mul_self_pos.mpr h2
        nlinarith [mul_self_nonneg (b.1 - a.1)]
    have ht : perpT (a.1 + s * (b.1 - a.1), a.2 + s * (b.2 - a.2)) a b = s := by
      unfold perpT
      field_simp
      ring
    rw [ht, if_neg (not_lt.mpr hs0), if_neg (not_lt.mpr hs1)]
    ring

/-- If every interior distance is zero, the maximum-search loop never updates
its accumulator. -/
lemma foldlMax_zero (d : ℕ → ℚ) :
    ∀ l : List ℕ, (∀ i ∈ l, d i = 0) →
      l.foldl (fun acc i => if acc.1 < d i then (d i, i) else acc) ((0:ℚ), (0:ℕ)) = (0, 0) := by
  intro l
  induction l with
  | nil => intro _; rfl
  | cons j t ih =>
    intro h
    simp only [List.foldl_cons]
    rw [h j (List.mem_cons_self j t), if_neg (by simp)]
    exact ih (fun i hi => h i (List.mem_cons_of_mem j hi))

lemma maxInterior_eq_init (pts : List Point)
    (h : ∀ i, 1 ≤ i → i + 1 < pts.length →
      perpDistSq (pts.getD i (0, 0)) (pts.getD 0 (0, 0))
        (pts.getD (pts.length - 1) (0, 0)) = 0) :
    maxInterior pts = (0, 0) := by
  unfold maxInterior
  apply foldlMax_zero
  intro i hi
  rw [List.mem_range'_1] at hi
  exact h i (by omega) (by omega)

lemma getD_zero_eq_headD (l : List Point) : l.getD 0 ((0:ℚ), (0:ℚ)) = l.headD (0, 0) := by
  cases l <;> rfl

lemma getD_pred_length_eq_getLastD (l : List Point) (h : l ≠ []) :
    l.getD (l.length - 1) ((0:ℚ), (0:ℚ)) = l.getLastD (0, 0) := by
  have hlt : l.length - 1 < l.length := by
    rcases l with _ | ⟨a, t⟩
    · exact absurd rfl h
    · simp
  rw [List.getD_eq_getElem?_getD, List.getElem?_eq_getElem hlt]
  rw [List.getLastD_eq_getLast?, List.getLast?_eq_getLast l h]
  simp [List.getLast_eq_getElem]

/-- **C2** (counterexample): the three points `(0,0), (−5,0), (1,0)` are
exactly collinear, yet with `epsilon = 1 > 0` the source keeps all three: the
middle point projects *outside* the chord from `(0,0)` to `(1,0)` (with the
source's clamping its distance is `5`, not `0`), so the result is not the
two-point list `[first, last]`. -/
theorem rdp_claim_C2_counterexample :
    CollinearPts [((0:ℚ), (0:ℚ)), (-5, 0), (1, 0)] ∧
    3 ≤ ([((0:ℚ), (0:ℚ)), (-5, 0), (1, 0)] : List Point).length ∧
    (0:ℚ) < 1 ∧
    ramerDouglasPeucker [((0:ℚ), (0:ℚ)), (-5, 0), (1, 0)] 1 =
      some [((0:ℚ), (0:ℚ)), (-5, 0), (1, 0)] ∧
    some [((0:ℚ), (0:ℚ)), (-5, 0), (1, 0)] ≠ some [((0:ℚ), (0:ℚ)), (1, 0)] := by
  refine ⟨?_, by norm_num, by norm_num, ?_, by simp⟩
  · intro p hp q hq r hr
    simp only [List.mem_cons, List.not_mem_nil, or_false] at hp hq hr
    rcases hp with rfl | rfl | rfl <;> rcases hq with rfl | rfl | rfl <;>
      rcases hr with rfl | rfl | rfl <;> norm_num
  · norm_num [ramerDouglasPeucker, rdpFuel, maxInterior, perpDistSq, perpT,
      sqrtGt, List.range']

/-- **C2** (amended): for every sequence of at least three points *each lying
on the closed segment between the first and the last point* (a strengthening
of collinearity forced by the source's clamped distance), and every
`epsilon > 0`, the simplifier returns exactly `[first, last]`. -/
theorem rdp_onSegment_collapse (points : List Point) (epsilon : ℚ)
    (hlen : 3 ≤ points.length) (heps : 0 < epsilon)
    (hseg : ∀ p ∈ points, OnSegment p (points.headD (0, 0)) (points.getLastD (0, 0))) :
    ramerDouglasPeucker points epsilon =
      some [points.headD (0, 0), points.getLastD (0, 0)] := by
  have hne : points ≠ [] := by
    intro hnil; rw [hnil] at hlen; simp at hlen
  unfold ramerDouglasPeucker
  rw [rdpFuel, if_neg (by omega)]
  have hmi : maxInterior points = (0, 0) := by
    apply maxInterior_eq_init
    intro i h1 h2
    rw [getD_zero_eq_headD, getD_pred_length_eq_getLastD points hne]
    apply perpDistSq_eq_zero_of_onSegment
    apply hseg
    rw [List.getD_eq_getElem?_getD, List.getElem?_eq_getElem (by omega)]
    exact List.getElem_mem _
  simp only [hmi]
  rw [if_neg ?guard]
  case guard =>
    unfold sqrtGt
    rw [if_neg (not_lt.mpr heps.le)]
    simp only [decide_eq_true_eq, not_lt]
    nlinarith

/-- Witness for C2's amended theorem at a concrete input. -/
theorem rdp_onSegment_collapse_witness :
    ramerDouglasPeucker [((0:ℚ), (0:ℚ)), (1, 0), (2, 0)] 1 =
      some [((0:ℚ), (0:ℚ)), (2, 0)] := by
  have h := rdp_onSegment_collapse [((0:ℚ), (0:ℚ)), (1, 0), (2, 0)] 1
    (by norm_num) (by norm_num) ?seg
  · simpa using h
  case seg =>
    intro p hp
    simp only [List.mem_cons, List.not_mem_nil, or_false] at hp
    simp only [List.headD_cons]
    rcases hp with rfl | rfl | rfl
    · exact ⟨0, by norm_num, by norm_num, by norm_num [Prod.ext_iff]⟩
    · exact ⟨1/2, by norm_num, by norm_num, by norm_num [Prod.ext_iff]⟩
    · exact ⟨1, by norm_num, by norm_num, by norm_num [Prod.ext_iff]⟩

/-! ## The path-command interpreter (`parsePathData`)

`parsePathData` (svgProcessor.ts, lines 59–160) first tokenizes the `d`
string with a regex into one-letter commands carrying numeric arguments, then
interprets them.  The embedding starts at the command level: a `PathCmd` is
one tokenized command (its letter and its parsed arguments) and the
interpreter below is the `switch` of lines 75–152.  A command whose argument
list stops short of a full coordinate group would make the source emit a
`NaN` coordinate (JavaScript indexes past the end of `args`); `NaN` has no
rational counterpart, so the embedding simply stops consuming there — no
claim exercises such inputs. -/

/-- Interpreter state: emitted subpaths, the working subpath, the cursor and
the recorded subpath start (svgProcessor.ts, lines 63–66). -/
structure PState where
  paths : List (List Point)
  currentPath : List Point
  x : ℚ
  y : ℚ
  startX : ℚ
  startY : ℚ

/-- One tokenized path command: its letter and numeric arguments. -/
structure PathCmd where
  letter : Char
  args : List ℚ

/-- `command === command.toLowerCase()` (svgProcessor.ts, line 73). -/
def isRelativeCmd (c : Char) : Bool := c.toLower == c

/-- The `M` loop (lines 77–92): the first pair starts a new subpath (pushing
any non-empty working subpath), later pairs are implicit line-tos. -/
def execMove : PState → Bool → List ℚ → Bool → PState
  | st, rel, a :: b :: rest, first =>
    let px := if rel then st.x + a else a
    let py := if rel then st.y + b else b
    let st1 :=
      if first then
        { st with
          paths := if 0 < st.currentPath.length then st.paths ++ [st.currentPath] else st.paths,
          currentPath := [(px, py)], x := px, y := py, startX := px, startY := py }
      else
        { st with currentPath := st.currentPath ++ [(px, py)], x := px, y := py }
    execMove st1 rel rest false
  | st, _, _, _ => st

/-- The `L` loop (lines 94–101). -/
def execLine : PState → Bool → List ℚ → PState
  | st, rel, a :: b :: rest =>
    let px := if rel then st.x + a else a
    let py := if rel then st.y + b else b
    execLine { st with currentPath := st.currentPath ++ [(px, py)], x := px, y := py } rel rest
  | st, _, _ => st

/-- The `H` loop (lines 103–108): only the x coordinate moves. -/
def execH : PState → Bool → List ℚ → PState
  | st, rel, a :: rest =>
    let px := if rel then st.x + a else a
    execH { st with currentPath := st.currentPath ++ [(px, st.y)], x := px } rel rest
  | st, _, [] => st

/-- The `V` loop (lines 110–115): only the y coordinate moves. -/
def execV : PState → Bool → List ℚ → PState
  | st, rel, a :: rest =>
    let py := if rel then st.y + a else a
    execV { st with currentPath := st.currentPath ++ [(st.x, py)], y := py } rel rest
  | st, _, [] => st

/-- The 10 cubic Bézier samples of the `C` case (lines 126–137), at
`t = 1/10 .. 10/10`, from cursor `(x, y)` with controls and endpoint. -/
def bezierPoints (x y x1 y1 x2 y2 endX endY : ℚ) : List Point :=
  (List.range' 1 10).map (fun step =>
    let t : ℚ := (step : ℚ) / 10
    let it := 1 - t
    let b1 := it * it * it
    let b2 := 3 * it * it * t
    let b3 := 3 * it * t * t
    let b4 := t * t * t
    (b1 * x + b2 * x1 + b3 * x2 + b4 * endX, b1 * y + b2 * y1 + b3 * y2 + b4 * endY))

/-- The `C` loop (lines 117–141): each 6-argument group is flattened to 10
points; the cursor jumps to the endpoint. -/
def execC : PState → Bool → List ℚ → PState
  | st, rel, a :: b :: c :: d :: e :: f :: rest =>
    let x1 := if rel then st.x + a else a
    let y1 := if rel then st.y + b else b
    let x2 := if rel then st.x + c else c
    let y2 := if rel then st.y + d else d
    let endX := if rel then st.x + e else e
    let endY := if rel then st.y + f else f
    execC { st with
      currentPath := st.currentPath ++ bezierPoints st.x st.y x1 y1 x2 y2 endX endY,
      x := endX, y := endY } rel rest
  | st, _, _ => st

/-- The command dispatch (lines 75–152).  Note the `Z` case (lines 142–148):
it appends the recorded start point to the working subpath, emits it and
clears it, but leaves the cursor `(x, y)` (and the recorded start) untouched. -/
def execCmd (st : PState) (cmd : PathCmd) : PState :=
  let rel := isRelativeCmd cmd.letter
  match cmd.letter.toUpper with
  | 'M' => execMove st rel cmd.args true
  | 'L' => execLine st rel cmd.args
  | 'H' => execH st rel cmd.args
  | 'V' => execV st rel cmd.args
  | 'C' => execC st rel cmd.args
  | 'Z' =>
    if 0 < st.currentPath.length then
      { st with
        paths := st.paths ++ [st.currentPath ++ [(st.startX, st.startY)]],
        currentPath := [] }
    else st
  | _ => st

/-- Initial interpreter state (lines 63–66). -/
def initPState : PState := ⟨[], [], 0, 0, 0, 0⟩

/-- `parsePathData` from the command level on: run all commands, then emit a
non-empty trailing subpath (lines 155–157). -/
def parsePath (cmds : List PathCmd) : List (List Point) :=
  let st := cmds.foldl execCmd initPState
  if 0 < st.currentPath.length then st.paths ++ [st.currentPath] else st.paths

/-! ## Claim C10: close-path does not move the cursor back to the start -/

/-- **C10**: a `Z` command with a non-empty working subpath appends the
recorded start point and emits the subpath, but the cursor stays at its
pre-close position; a relative `l` command that immediately follows resolves
against that pre-close cursor, which differs from what resolving against the
subpath start would give whenever cursor and start differ. -/
theorem closePath_keeps_cursor (st : PState) (a b : ℚ) (h : st.currentPath ≠ []) :
    (execCmd st ⟨'Z', []⟩).x = st.x ∧
    (execCmd st ⟨'Z', []⟩).y = st.y ∧
    (execCmd st ⟨'Z', []⟩).paths =
      st.paths ++ [st.currentPath ++ [(st.startX, st.startY)]] ∧
    (execCmd st ⟨'Z', []⟩).currentPath = [] ∧
    (execCmd (execCmd st ⟨'Z', []⟩) ⟨'l', [a, b]⟩).currentPath = [(st.x + a, st.y + b)] ∧
    ((st.x, st.y) ≠ (st.startX, st.startY) →
      (st.x + a, st.y + b) ≠ (st.startX + a, st.startY + b)) := by
  have hlen : 0 < st.currentPath.length := List.length_pos.mpr h
  have hz : execCmd st ⟨'Z', []⟩ =
      { st with
        paths := st.paths ++ [st.currentPath ++ [(st.startX, st.startY)]],
        currentPath := [] } := by
    show (if 0 < st.currentPath.length then _ else st) = _
    rw [if_pos hlen]
  rw [hz]
  refine ⟨rfl, rfl, rfl, rfl, ?_, ?_⟩
  · show (execLine _ true [a, b]).currentPath = _
    simp [execLine]
  · intro hne heq
    apply hne
    have h1 : st.x + a = st.startX + a := congrArg Prod.fst heq
    have h2 : st.y + b = st.startY + b := congrArg Prod.snd heq
    have : st.x = st.startX := by linarith
    have : st.y = st.startY := by linarith
    simp_all [Prod.ext_iff]

/-- Witness for C10 at a concrete state: subpath started at `(3,4)`, cursor
at `(5,6)`; after `Z` the relative `l 10 20` lands at `(15, 26)`, not at
`(13, 24)`. -/
theorem closePath_keeps_cursor_witness :
    (execCmd (execCmd ⟨[], [((3:ℚ), (4:ℚ))], 5, 6, 3, 4⟩ ⟨'Z', []⟩)
      ⟨'l', [10, 20]⟩).currentPath = [((5:ℚ) + 10, (6:ℚ) + 20)] :=
  (closePath_keeps_cursor ⟨[], [((3:ℚ), (4:ℚ))], 5, 6, 3, 4⟩ 10 20 (by simp)).2.2.2.2.1

/-! ## Coordinate-space resolution and the resize transform -/

/-- The document's resolved coordinate space (svgProcessor.ts, lines
223–240): origin and size, from the view-box when present (all four values
are taken from it), falling back to the width/height attributes — note the
fallback replaces only the sizes, keeping any view-box origin. -/
structure SvgDims where
  originX : ℚ
  originY : ℚ
  svgWidth : ℚ
  svgHeight : ℚ

/-- Lines 226–240.  `viewBox = some (ox, oy, w, h)` models a `viewBox`
attribute that parsed into exactly four numbers; `none` models a missing (or
short) attribute, leaving the zero defaults.  `widthAttr`/`heightAttr` are
the parsed `width`/`height` attributes (`parseFloat(attr ?? '0')`). -/
def resolveDims (viewBox : Option (ℚ × ℚ × ℚ × ℚ)) (widthAttr heightAttr : ℚ) : SvgDims :=
  let d0 : SvgDims :=
    match viewBox with
    | some (ox, oy, w, h) => ⟨ox, oy, w, h⟩
    | none => ⟨0, 0, 0, 0⟩
  if d0.svgWidth = 0 ∨ d0.svgHeight = 0 then
    { d0 with svgWidth := widthAttr, svgHeight := heightAttr }
  else d0

/-- The resize parameters of lines 223 and 242–254: `scale = 1`,
`translateX = translateY = 0` unless resizing is on and both resolved sizes
are positive, in which case a uniform scale into the 720×1080 canvas plus
centering offsets are computed. -/
structure ResizeParams where
  scale : ℚ
  translateX : ℚ
  translateY : ℚ

def computeResize (shouldResize : Bool) (dims : SvgDims) : ResizeParams :=
  if shouldResize ∧ 0 < dims.svgWidth ∧ 0 < dims.svgHeight then
    let scaleX := 720 / dims.svgWidth
    let scaleY := 1080 / dims.svgHeight
    let scale := min scaleX scaleY
    let newWidth := dims.svgWidth * scale
    let newHeight := dims.svgHeight * scale
    ⟨scale, (720 - newWidth) / 2, (1080 - newHeight) / 2⟩
  else ⟨1, 0, 0⟩

/-- The per-point transform of lines 301–305. -/
def transformPoint (dims : SvgDims) (rp : ResizeParams) (p : Point) : Point :=
  ((p.1 - dims.originX) * rp.scale + rp.translateX,
   (p.2 - dims.originY) * rp.scale + rp.translateY)

/-- Lines 300–306: the map is applied whenever `shouldResize` is on —
regardless of whether the sizes were actually resolved. -/
def transformPoints (shouldResize : Bool) (dims : SvgDims) (pts : List Point) : List Point :=
  if shouldResize then pts.map (transformPoint dims (computeResize shouldResize dims)) else pts

/-! ## The deduplication pass (lines 311–326) -/

/-- The filter loop: keep a point iff its squared distance to the last *kept*
point strictly exceeds `minDistanceSq`. -/
def dedupGo (minDistanceSq : ℚ) : Point → List Point → List Point
  | _, [] => []
  | lastPoint, q :: rest =>
    let dx := q.1 - lastPoint.1
    let dy := q.2 - lastPoint.2
    if minDistanceSq < dx * dx + dy * dy then q :: dedupGo minDistanceSq q rest
    else dedupGo minDistanceSq lastPoint rest

/-- Lines 312–326: active only when `minDistance > 0` and the list is
non-empty; always keeps the first point. -/
def dedupPoints (minDistance : ℚ) (simplified : List Point) : List Point :=
  if 0 < minDistance ∧ 0 < simplified.length then
    match simplified with
    | [] => []
    | p :: rest => p :: dedupGo (minDistance * minDistance) p rest
  else simplified

/-! ## The closure flag (lines 330–339) -/

/-- `isPathClosed`: the canonical-path closure wins; otherwise compare the
first and last points of the *simplified, pre-deduplication* list — both
coordinate deltas strictly below `0.1`.  (At the call site the list has
length ≥ 2, so `headD`/`getLastD` are `simplified[0]` and
`simplified[simplified.length - 1]`.) -/
def closedFlag (isClosed : Bool) (simplified : List Point) : Bool :=
  if isClosed then true
  else
    let first := simplified.headD (0, 0)
    let last := simplified.getLastD (0, 0)
    decide (|first.1 - last.1| < 1/10 ∧ |first.2 - last.2| < 1/10)

/-- One subpath through the per-subpath body of `processSVG` (lines
297–339): drop short inputs, transform, simplify, drop short results,
deduplicate, drop short results, and pair the surviving points with the
closure flag computed from the *pre-deduplication* simplified list.
`none` covers both a dropped subpath and a non-returning simplifier run. -/
def processSubpath (shouldResize : Bool) (dims : SvgDims) (epsilon minDistance : ℚ)
    (isClosed : Bool) (pathPoints : List Point) : Option (List Point × Bool) :=
  if pathPoints.length < 2 then none
  else
    match ramerDouglasPeucker (transformPoints shouldResize dims pathPoints) epsilon with
    | none => none
    | some simplified =>
      if simplified.length < 2 then none
      else
        let finalPoints := dedupPoints minDistance simplified
        if finalPoints.length < 2 then none
        else some (finalPoints, closedFlag isClosed simplified)

/-! ## Claim C3: the closure flag uses the pre-deduplication endpoints -/

/-- **C3**: for every processed subpath, the final closed flag is `true` when
the canonical path description signalled closure, and otherwise it is `true`
exactly when the first and last points of the simplified-but-not-yet-
deduplicated list differ by less than `0.1` on both axes; the emitted point
list is the deduplication of that same simplified list. -/
theorem subpath_closed_flag (shouldResize : Bool) (dims : SvgDims)
    (epsilon minDistance : ℚ) (isClosed : Bool) (pathPoints finalPts : List Point)
    (flag : Bool)
    (h : processSubpath shouldResize dims epsilon minDistance isClosed pathPoints =
      some (finalPts, flag)) :
    ∃ simplified,
      ramerDouglasPeucker (transformPoints shouldResize dims pathPoints) epsilon =
        some simplified ∧
      finalPts = dedupPoints minDistance simplified ∧
      (isClosed = true → flag = true) ∧
      (isClosed = false →
        (flag = true ↔
          |(simplified.headD (0, 0)).1 - (simplified.getLastD (0, 0)).1| < 1/10 ∧
          |(simplified.headD (0, 0)).2 - (simplified.getLastD (0, 0)).2| < 1/10)) := by
  simp only [processSubpath] at h
  by_cases h2 : pathPoints.length < 2
  · rw [if_pos h2] at h; simp at h
  · rw [if_neg h2] at h
    cases hrd : ramerDouglasPeucker (transformPoints shouldResize dims pathPoints) epsilon with
    | none => rw [hrd] at h; simp at h
    | some simplified =>
      rw [hrd] at h
      simp only [] at h
      by_cases h3 : simplified.length < 2
      · rw [if_pos h3] at h; simp at h
      · rw [if_neg h3] at h
        by_cases h4 : (dedupPoints minDistance simplified).length < 2
        · rw [if_pos h4] at h; simp at h
        · rw [if_neg h4] at h
          have hinj := Option.some.inj h
          have hfp : dedupPoints minDistance simplified = finalPts :=
            congrArg Prod.fst hinj
          have hfl : closedFlag isClosed simplified = flag :=
            congrArg Prod.snd hinj
          refine ⟨simplified, rfl, hfp.symm, ?_, ?_⟩
          · intro hic
            rw [← hfl, closedFlag, hic, if_pos rfl]
          · intro hic
            rw [← hfl]
            simp only [closedFlag, hic, Bool.false_eq_true, if_false,
              decide_eq_true_eq]

/-- Witness for C3 at a concrete subpath: two far-apart points, no resize,
`epsilon = 0`, `minDistance = 0`, canonical closure off. -/
theorem subpath_closed_flag_witness :
    ∃ simplified,
      ramerDouglasPeucker
          (transformPoints false ⟨0, 0, 0, 0⟩ [((0:ℚ), (0:ℚ)), (5, 5)]) 0 =
        some simplified ∧
      [((0:ℚ), (0:ℚ)), (5, 5)] = dedupPoints 0 simplified ∧
      (false = true → false = true) ∧
      (false = false →
        (false = true ↔
          |(simplified.headD (0, 0)).1 - (simplified.getLastD (0, 0)).1| < 1/10 ∧
          |(simplified.headD (0, 0)).2 - (simplified.getLastD (0, 0)).2| < 1/10)) :=
  subpath_closed_flag false ⟨0, 0, 0, 0⟩ 0 0 false [((0:ℚ), (0:ℚ)), (5, 5)]
    [((0:ℚ), (0:ℚ)), (5, 5)] false (by
      have h1 : transformPoints false (⟨0, 0, 0, 0⟩ : SvgDims)
          [((0:ℚ), (0:ℚ)), (5, 5)] = [((0:ℚ), (0:ℚ)), (5, 5)] := by
        simp [transformPoints]
      have h2 : ramerDouglasPeucker [((0:ℚ), (0:ℚ)), (5, 5)] 0 =
          some [((0:ℚ), (0:ℚ)), (5, 5)] := by
        show rdpFuel (2 + 1) _ _ = _
        rw [rdpFuel, if_pos (by norm_num)]
      have h3 : dedupPoints 0 [((0:ℚ), (0:ℚ)), (5, 5)] = [((0:ℚ), (0:ℚ)), (5, 5)] := by
        norm_num [dedupPoints]
      have h4 : closedFlag false [((0:ℚ), (0:ℚ)), (5, 5)] = false := by
        norm_num [closedFlag]
      simp only [processSubpath, h1, h2, h3, h4]
      norm_num)

/-! ## Claim C8: deduplication keeps the first point and enforces spacing -/

/-- Every pair of consecutive points in `last :: dedupGo m2 last rest` is
separated by squared distance strictly greater than `m2`. -/
lemma dedupGo_chain (m2 : ℚ) :
    ∀ (rest : List Point) (lastPoint : Point),
      List.Chain' (fun a b => m2 < (b.1 - a.1) * (b.1 - a.1) + (b.2 - a.2) * (b.2 - a.2))
        (lastPoint :: dedupGo m2 lastPoint rest) := by
  intro rest
  induction rest with
  | nil => intro lp; simp [dedupGo]
  | cons q t ih =>
    intro lp
    simp only [dedupGo]
    by_cases hq : m2 < (q.1 - lp.1) * (q.1 - lp.1) + (q.2 - lp.2) * (q.2 - lp.2)
    · rw [if_pos hq]
      exact List.chain'_cons.mpr ⟨hq, ih q⟩
    · rw [if_neg hq]
      exact ih lp

/-- **C8**: for every non-empty input and every `minDistance > 0`, the
deduplication pass keeps the first input point as its first output point, and
every pair of consecutive output points has squared Euclidean distance
strictly greater than `minDistance²` (equivalently, Euclidean distance
strictly greater than `minDistance`). -/
theorem dedup_first_and_spacing (pts : List Point) (minDistance : ℚ)
    (hm : 0 < minDistance) (hne : pts ≠ []) :
    (dedupPoints minDistance pts).head? = pts.head? ∧
    List.Chain'
      (fun a b => minDistance * minDistance <
        (b.1 - a.1) * (b.1 - a.1) + (b.2 - a.2) * (b.2 - a.2))
      (dedupPoints minDistance pts) := by
  obtain ⟨p, rest, rfl⟩ : ∃ p rest, pts = p :: rest := by
    rcases pts with _ | ⟨p, rest⟩
    · exact absurd rfl hne
    · exact ⟨p, rest, rfl⟩
  have hd : dedupPoints minDistance (p :: rest) =
      p :: dedupGo (minDistance * minDistance) p rest := by
    simp only [dedupPoints]
    rw [if_pos ⟨hm, by simp⟩]
  rw [hd]
  exact ⟨rfl, dedupGo_chain _ rest p⟩

/-- Witness for C8 at a concrete input. -/
theorem dedup_first_and_spacing_witness :
    (dedupPoints 1 [((0:ℚ), (0:ℚ)), (3, 0)]).head? = some ((0:ℚ), (0:ℚ)) ∧
    List.Chain'
      (fun a b => (1:ℚ) * 1 <
        (b.1 - a.1) * (b.1 - a.1) + (b.2 - a.2) * (b.2 - a.2))
      (dedupPoints 1 [((0:ℚ), (0:ℚ)), (3, 0)]) :=
  dedup_first_and_spacing [((0:ℚ), (0:ℚ)), (3, 0)] 1 (by norm_num) (by simp)

/-! ## Claim C9: when does the geometry transform pass points through? -/

/-- **C9** (counterexample): with resizing requested but an unresolvable
size (view-box `5 5 0 0`, no usable width/height), the claim says points pass
through unmodified — but the source still subtracts the view-box origin:
`(0,0)` becomes `(−5,−5)`. -/
theorem transform_claim_C9_counterexample :
    ¬(0 < (resolveDims (some ((5:ℚ), (5:ℚ), (0:ℚ), (0:ℚ))) 0 0).svgWidth) ∧
    transformPoints true (resolveDims (some ((5:ℚ), (5:ℚ), (0:ℚ), (0:ℚ))) 0 0)
        [((0:ℚ), (0:ℚ))] ≠ [((0:ℚ), (0:ℚ))] := by
  have hd : resolveDims (some ((5:ℚ), (5:ℚ), (0:ℚ), (0:ℚ))) 0 0 =
      (⟨5, 5, 0, 0⟩ : SvgDims) := by
    norm_num [resolveDims]
  rw [hd]
  constructor
  · norm_num
  · norm_num [transformPoints, transformPoint, computeResize, Prod.ext_iff]

/-- **C9** (amended): with the fit-to-canvas option off, points pass through
unmodified.  With the option on but no usable resolved size, each point is
translated by the negative of the resolved origin (scale 1, no centering
offset); this is the identity exactly when the resolved origin is `(0,0)` —
in particular whenever no view-box origin was parsed. -/
theorem transform_passthrough (shouldResize : Bool) (dims : SvgDims) (pts : List Point) :
    (shouldResize = false → transformPoints shouldResize dims pts = pts) ∧
    (shouldResize = true → ¬(0 < dims.svgWidth ∧ 0 < dims.svgHeight) →
      transformPoints shouldResize dims pts =
        pts.map (fun p => (p.1 - dims.originX, p.2 - dims.originY))) ∧
    (shouldResize = true → ¬(0 < dims.svgWidth ∧ 0 < dims.svgHeight) →
      dims.originX = 0 → dims.originY = 0 →
      transformPoints shouldResize dims pts = pts) := by
  have hmap : shouldResize = true → ¬(0 < dims.svgWidth ∧ 0 < dims.svgHeight) →
      transformPoints shouldResize dims pts =
        pts.map (fun p => (p.1 - dims.originX, p.2 - dims.originY)) := by
    intro hsr hdim
    subst hsr
    have hcr : computeResize true dims = ⟨1, 0, 0⟩ := by
      simp only [computeResize]
      rw [if_neg (by simpa using hdim)]
    simp only [transformPoints, if_pos rfl, hcr]
    apply List.map_congr_left
    intro p _
    simp [transformPoint]
  refine ⟨?_, hmap, ?_⟩
  · intro hsr
    subst hsr
    simp [transformPoints]
  · intro hsr hdim hox hoy
    rw [hmap hsr hdim, hox, hoy]
    simp

/-- Witness for C9's amended theorem at concrete inputs: resizing off leaves
a concrete point list untouched. -/
theorem transform_passthrough_witness :
    transformPoints false (⟨5, 5, 0, 0⟩ : SvgDims) [((1:ℚ), (2:ℚ))] = [((1:ℚ), (2:ℚ))] :=
  (transform_passthrough false (⟨5, 5, 0, 0⟩ : SvgDims) [((1:ℚ), (2:ℚ))]).1 rfl

/-! ## The element-level pipeline (`processSVG`, lines 207–360)

Parsing of the input text into a DOM and the regex tokenization of path
strings are not modelled; the embedding starts from what the source reads off
the parsed tree: the recognized shape elements in document order, the
view-box/width/height attribute values, and for each rectangle its attribute
data.  Non-rectangle elements are carried as their canonical-path closure flag
plus the subpaths `parsePathData` produces for them; a rectangle's subpaths
are computed from its attributes through the interpreter, exactly as the
source builds `M x y H x+w V y+h H x Z` (line 174) and reparses it. -/

/-- The three rejection kinds of `processSVG` (spec §7): input that does not
parse, no recognized shape elements (line 259), and no surviving coordinates
(line 356). -/
inductive SvgError where
  | malformedInput
  | noEligibleShapes
  | degenerateGeometry
deriving DecidableEq

/-- A rectangle element's attribute data: whether `width`/`height` are the
literal string `"100%"` (lines 271), and the parsed numeric values of
`x`, `y`, `width`, `height` (`parseFloat(attr ?? '0')`, lines 277–280).
(When an attribute is `"100%"` its parsed value is `100`; no claim depends
on that coupling.) -/
structure RectData where
  w100 : Bool
  h100 : Bool
  x : ℚ
  y : ℚ
  w : ℚ
  h : ℚ

/-- The background-frame exclusion test of lines 266–292: skip when both size
attributes are literally `"100%"`, or when the canvas resolved to a positive
size and all four of x, y, width, height are within 1 unit of the canvas
origin and size. -/
def isBackgroundRect (r : RectData) (dims : SvgDims) : Bool :=
  (r.w100 && r.h100) ||
  (decide (0 < dims.svgWidth) && decide (0 < dims.svgHeight) &&
   decide (|r.x - dims.originX| ≤ 1) && decide (|r.y - dims.originY| ≤ 1) &&
   decide (|r.w - dims.svgWidth| ≤ 1) && decide (|r.h - dims.svgHeight| ≤ 1))

/-- The exclusion condition as claim C4 words it: x, y, x+width, y+height
each within 1 unit of originX, originY, originX+width, originY+height.  This
definition follows the claim, to be compared against `isBackgroundRect`,
which follows the source. -/
def claimBackgroundRect (r : RectData) (dims : SvgDims) : Bool :=
  (r.w100 && r.h100) ||
  (decide (0 < dims.svgWidth) && decide (0 < dims.svgHeight) &&
   decide (|r.x - dims.originX| ≤ 1) && decide (|r.y - dims.originY| ≤ 1) &&
   decide (|r.x + r.w - (dims.originX + dims.svgWidth)| ≤ 1) &&
   decide (|r.y + r.h - (dims.originY + dims.svgHeight)| ≤ 1))

/-- The canonical path of a rectangle (`shapeToPath`, line 174), already
tokenized: `M x y H x+w V y+h H x Z`. -/
def rectCanonicalCmds (r : RectData) : List PathCmd :=
  [⟨'M', [r.x, r.y]⟩, ⟨'H', [r.x + r.w]⟩, ⟨'V', [r.y + r.h]⟩, ⟨'H', [r.x]⟩, ⟨'Z', []⟩]

/-- A rectangle's subpaths, through the interpreter. -/
def rectSubPaths (r : RectData) : List (List Point) := parsePath (rectCanonicalCmds r)

/-- One recognized shape element: a rectangle (carrying its attributes, since
the exclusion rule needs them), or any other recognized kind, carried as its
canonical-path closure flag and its parsed subpaths. -/
inductive SvgElem where
  | rect (r : RectData)
  | other (isClosed : Bool) (subPaths : List (List Point))

/-- The per-element body of the `elements.forEach` (lines 264–353), up to the
serialization of each surviving subpath: rectangles are dropped entirely when
the background-frame test fires, otherwise every subpath runs through
`processSubpath` (rectangles are canonically closed). -/
def elemOutputs (shouldResize : Bool) (dims : SvgDims) (epsilon minDistance : ℚ) :
    SvgElem → List (List Point × Bool)
  | .rect r =>
    if isBackgroundRect r dims then []
    else (rectSubPaths r).filterMap (processSubpath shouldResize dims epsilon minDistance true)
  | .other isClosed subPaths =>
    subPaths.filterMap (processSubpath shouldResize dims epsilon minDistance isClosed)

/-- The orchestration of `processSVG` (lines 207–360): resolve the coordinate
space, reject when there are no recognized elements at all (line 258, *before*
the background-frame exclusion), process every element, and reject when
nothing survived (line 355); otherwise succeed with the surviving subpaths
(which the source then serializes, one coordinate block per subpath). -/
def processSVG (elements : List SvgElem) (viewBox : Option (ℚ × ℚ × ℚ × ℚ))
    (widthAttr heightAttr : ℚ) (shouldResize : Bool) (epsilon minDistance : ℚ) :
    Except SvgError (List (List Point × Bool)) :=
  let dims := resolveDims viewBox widthAttr heightAttr
  if elements.isEmpty then .error .noEligibleShapes
  else
    let outs := elements.flatMap (elemOutputs shouldResize dims epsilon minDistance)
    if outs.isEmpty then .error .degenerateGeometry
    else .ok outs

/-- Dispatch computations at concrete command letters (no rational arithmetic
involved, so these are definitional). -/
lemma execCmd_M (st : PState) (args : List ℚ) :
    execCmd st ⟨'M', args⟩ = execMove st false args true := rfl

lemma execCmd_H (st : PState) (args : List ℚ) :
    execCmd st ⟨'H', args⟩ = execH st false args := rfl

lemma execCmd_V (st : PState) (args : List ℚ) :
    execCmd st ⟨'V', args⟩ = execV st false args := rfl

lemma execCmd_Z (st : PState) (args : List ℚ) :
    execCmd st ⟨'Z', args⟩ =
      if 0 < st.currentPath.length then
        { st with
          paths := st.paths ++ [st.currentPath ++ [(st.startX, st.startY)]],
          currentPath := [] }
      else st := rfl

/-- A rectangle's canonical path interprets to the single closed 5-point
subpath around its four corners. -/
lemma rectSubPaths_eq (r : RectData) :
    rectSubPaths r =
      [[(r.x, r.y), (r.x + r.w, r.y), (r.x + r.w, r.y + r.h), (r.x, r.y + r.h),
        (r.x, r.y)]] := by
  unfold rectSubPaths rectCanonicalCmds parsePath
  simp only [List.foldl_cons, List.foldl_nil, execCmd_M, execCmd_H, execCmd_V, execCmd_Z]
  simp [execMove, execH, execV, initPState]

/-! ## Claim C4: the background-frame exclusion rule -/

/-- **C4** (counterexample): canvas `(0,0)–(100,100)`; the rectangle at
`x = 1, y = 0` with `width = 98, height = 100` satisfies the claim's
condition (x, y, x+w, y+h all within 1 of the canvas origin/extent:
`|99 − 100| = 1`), yet the source compares the *sizes* directly
(`|98 − 100| = 2 > 1`) and keeps the rectangle — its subpath appears in the
output. -/
theorem rect_claim_C4_counterexample :
    isBackgroundRect ⟨false, false, 1, 0, 98, 100⟩ ⟨0, 0, 100, 100⟩ = false ∧
    claimBackgroundRect ⟨false, false, 1, 0, 98, 100⟩ ⟨0, 0, 100, 100⟩ = true ∧
    elemOutputs false ⟨0, 0, 100, 100⟩ 1000 0
      (SvgElem.rect ⟨false, false, 1, 0, 98, 100⟩) ≠ [] := by
  have hbg : isBackgroundRect ⟨false, false, 1, 0, 98, 100⟩ ⟨0, 0, 100, 100⟩ = false := by
    norm_num [isBackgroundRect]
  refine ⟨hbg, by norm_num [claimBackgroundRect], ?_⟩
  have hsub : rectSubPaths ⟨false, false, 1, 0, 98, 100⟩ =
      [[((1:ℚ), (0:ℚ)), (99, 0), (99, 100), (1, 100), (1, 0)]] := by
    rw [rectSubPaths_eq]
    norm_num
  have hrdp : ramerDouglasPeucker
      [((1:ℚ), (0:ℚ)), (99, 0), (99, 100), (1, 100), (1, 0)] 1000 =
      some [((1:ℚ), (0:ℚ)), (1, 0)] := by
    show rdpFuel (5 + 1) _ _ = _
    rw [rdpFuel, if_neg (by norm_num)]
    have hmi : maxInterior [((1:ℚ), (0:ℚ)), (99, 0), (99, 100), (1, 100), (1, 0)] =
        (19604, 2) := by
      norm_num [maxInterior, perpDistSq, perpT, List.range']
    simp only [hmi]
    rw [if_neg (by norm_num [sqrtGt])]
    norm_num
  have hps : processSubpath false ⟨0, 0, 100, 100⟩ 1000 0 true
      [((1:ℚ), (0:ℚ)), (99, 0), (99, 100), (1, 100), (1, 0)] =
      some ([((1:ℚ), (0:ℚ)), (1, 0)], true) := by
    simp only [processSubpath]
    rw [if_neg (by norm_num)]
    have htr : transformPoints false ⟨0, 0, 100, 100⟩
        [((1:ℚ), (0:ℚ)), (99, 0), (99, 100), (1, 100), (1, 0)] =
        [((1:ℚ), (0:ℚ)), (99, 0), (99, 100), (1, 100), (1, 0)] := by
      simp [transformPoints]
    rw [htr, hrdp]
    simp only []
    rw [if_neg (by norm_num)]
    have hdd : dedupPoints 0 [((1:ℚ), (0:ℚ)), (1, 0)] = [((1:ℚ), (0:ℚ)), (1, 0)] := by
      norm_num [dedupPoints]
    simp only [hdd]
    rw [if_neg (by norm_num)]
    simp [closedFlag]
  simp only [elemOutputs, hbg, Bool.false_eq_true, if_false, hsub,
    List.filterMap_cons, hps, List.filterMap_nil]
  simp

/-- **C4** (amended): a rectangle element is excluded as a background frame
exactly when both size attributes are the literal `"100%"`, or the canvas
resolved to a positive size and its x, y, *width and height* are each within
1 unit of the canvas origin and *size* (the source compares widths and
heights directly, not the far edges `x+width`, `y+height`); an excluded
rectangle contributes nothing to the output. -/
theorem rect_background_exclusion (r : RectData) (dims : SvgDims)
    (shouldResize : Bool) (epsilon minDistance : ℚ) :
    (isBackgroundRect r dims = true ↔
      ((r.w100 = true ∧ r.h100 = true) ∨
        (0 < dims.svgWidth ∧ 0 < dims.svgHeight ∧
          |r.x - dims.originX| ≤ 1 ∧ |r.y - dims.originY| ≤ 1 ∧
          |r.w - dims.svgWidth| ≤ 1 ∧ |r.h - dims.svgHeight| ≤ 1))) ∧
    (isBackgroundRect r dims = true →
      elemOutputs shouldResize dims epsilon minDistance (SvgElem.rect r) = []) := by
  constructor
  · simp [isBackgroundRect, and_assoc]
  · intro hbg
    simp [elemOutputs, hbg]

/-- Witness for C4's amended theorem: a `100%`-by-`100%` rectangle is
excluded and produces no output. -/
theorem rect_background_exclusion_witness :
    elemOutputs false ⟨0, 0, 100, 100⟩ 1 0
      (SvgElem.rect ⟨true, true, 0, 0, 100, 100⟩) = [] :=
  (rect_background_exclusion ⟨true, true, 0, 0, 100, 100⟩ ⟨0, 0, 100, 100⟩ false 1 0).2
    (by norm_num [isBackgroundRect])

/-! ## Claim C6: when is `NoEligibleShapesError` raised? -/

/-- **C6** (counterexample): a document whose only element is a canvas-sized
background rectangle.  After background-frame exclusion no recognized shape
remains, so the claim demands `NoEligibleShapesError`; but the source checks
`elements.length === 0` *before* the exclusion, so it instead reaches the
empty-coordinates rejection (`DegenerateGeometryError`). -/
theorem pipeline_claim_C6_counterexample :
    isBackgroundRect ⟨false, false, 0, 0, 100, 100⟩
      (resolveDims (some (0, 0, 100, 100)) 0 0) = true ∧
    processSVG [SvgElem.rect ⟨false, false, 0, 0, 100, 100⟩]
        (some (0, 0, 100, 100)) 0 0 false 1 0 =
      .error .degenerateGeometry ∧
    SvgError.degenerateGeometry ≠ SvgError.noEligibleShapes := by
  have hdims : resolveDims (some ((0:ℚ), (0:ℚ), (100:ℚ), (100:ℚ))) 0 0 =
      ⟨0, 0, 100, 100⟩ := by
    norm_num [resolveDims]
  have hbg : isBackgroundRect ⟨false, false, 0, 0, 100, 100⟩ ⟨0, 0, 100, 100⟩ = true := by
    norm_num [isBackgroundRect]
  refine ⟨by rw [hdims]; exact hbg, ?_, by simp⟩
  simp only [processSVG, hdims]
  rw [if_neg (by simp)]
  simp [elemOutputs, hbg]

/-- **C6** (amended): `NoEligibleShapesError` is produced exactly when the
element list is empty *before* background-frame exclusion; when elements
exist but every one of them is excluded or yields nothing, the pipeline still
fails with no partial output, but with `DegenerateGeometryError`. -/
theorem pipeline_error_kinds (elements : List SvgElem)
    (viewBox : Option (ℚ × ℚ × ℚ × ℚ)) (widthAttr heightAttr : ℚ)
    (shouldResize : Bool) (epsilon minDistance : ℚ) :
    (processSVG elements viewBox widthAttr heightAttr shouldResize epsilon minDistance =
        .error .noEligibleShapes ↔ elements = []) ∧
    ((elements ≠ [] ∧ ∀ el ∈ elements,
        elemOutputs shouldResize (resolveDims viewBox widthAttr heightAttr)
          epsilon minDistance el = []) →
      processSVG elements viewBox widthAttr heightAttr shouldResize epsilon minDistance =
        .error .degenerateGeometry) := by
  constructor
  · simp only [processSVG]
    by_cases he : elements.isEmpty
    · rw [if_pos he]
      simp only [List.isEmpty_iff] at he
      simp [he]
    · rw [if_neg he]
      simp only [List.isEmpty_iff] at he
      constructor
      · intro h
        by_cases ho :
            (elements.flatMap (elemOutputs shouldResize
              (resolveDims viewBox widthAttr heightAttr) epsilon minDistance)).isEmpty
        · rw [if_pos ho] at h
          simp at h
        · rw [if_neg ho] at h
          simp at h
      · intro h
        exact absurd h he
  · rintro ⟨hne, hall⟩
    simp only [processSVG]
    rw [if_neg (by simpa [List.isEmpty_iff] using hne)]
    rw [if_pos]
    simp only [List.isEmpty_iff, List.flatMap_eq_nil_iff]
    exact hall

/-- Witness for C6's amended theorem: one recognized element with no
subpaths at all still yields `DegenerateGeometryError`, not
`NoEligibleShapesError`. -/
theorem pipeline_error_kinds_witness :
    processSVG [SvgElem.other true []] none 0 0 false 1 0 =
      .error .degenerateGeometry :=
  (pipeline_error_kinds [SvgElem.other true []] none 0 0 false 1 0).2
    ⟨by simp, by
      intro el hel
      simp only [List.mem_singleton] at hel
      subst hel
      simp [elemOutputs]⟩

/-! ## The coordinate serializer and deserializer (DotPreview component)

The `shapes` memo of the dot-preview component (part_002, lines 39–91)
deserializes free-form coordinate text, and `shapesToString` (lines 16–32)
serializes the shape list back.  Strings are worked with as `List Char`;
`String` wrappers sit at the boundary.  The coordinate regex
(part_002, line 55) is embedded as the deterministic matcher `matchAt` (the
regex has no genuine backtracking: every starred class is disjoint from the
character that must follow it), and the `exec` loop as `scanTokens`, which
tries every start position left to right and resumes after each match.
`\s` is modelled by its ASCII members (Unicode space characters omitted). -/

/-- ASCII whitespace, as matched by the regex `\s` classes and by `trim`. -/
def jsWs (c : Char) : Bool :=
  c == ' ' || c == '\t' || c == '\n' || c == '\r' || c == '\x0b' || c == '\x0c'

/-- A shape of the dot-preview component (part_002, lines 10–13). -/
structure Shape where
  points : List Point
  isClosed : Bool
deriving DecidableEq

def skipWs (cs : List Char) : List Char := cs.dropWhile jsWs

def digitVal (c : Char) : ℕ := c.toNat - 48

def digitsToNat (ds : List Char) : ℕ := ds.foldl (fun n c => 10 * n + digitVal c) 0

/-- The optional leading `-`. -/
def parseSign (cs : List Char) : Bool × List Char :=
  match cs with
  | '-' :: t => (true, t)
  | _ => (false, cs)

/-- The optional fractional part `(?:\.\d+)?`: a `.` not followed by a digit
is left unconsumed, exactly as the regex (after backtracking out of the
group) would leave it. -/
def parseFrac (intPart : ℚ) (cs2 : List Char) : ℚ × List Char :=
  match cs2 with
  | '.' :: cs3 =>
    let fs := cs3.takeWhile Char.isDigit
    if fs.isEmpty then (intPart, cs2)
    else (intPart + (digitsToNat fs : ℚ) / (10 : ℚ) ^ fs.length,
      cs3.dropWhile Char.isDigit)
  | _ => (intPart, cs2)

/-- Matching of one `-?\d+(?:\.\d+)?` numeral at the head of the input,
returning its exact rational value (the source applies `parseFloat` to the
captured text) and the unconsumed rest; `none` when no numeral starts here. -/
def parseNum (cs : List Char) : Option (ℚ × List Char) :=
  let (neg, cs1) := parseSign cs
  let ds := cs1.takeWhile Char.isDigit
  if ds.isEmpty then none
  else
    let (val, rest) := parseFrac (digitsToNat ds : ℚ) (cs1.dropWhile Char.isDigit)
    some (if neg then -val else val, rest)

def expectChar (c : Char) (cs : List Char) : Option (List Char) :=
  match cs with
  | x :: r => if x = c then some r else none
  | [] => none

/-- One attempted match of the coordinate regex at the start of `cs`: on
success, the two coordinate values, whether the `-1` closure marker was
present, and the rest of the input after the closing `]`. -/
def matchAt (cs : List Char) : Option ((ℚ × ℚ × Bool) × List Char) :=
  match cs with
  | '[' :: cs1 =>
    match parseNum (skipWs cs1) with
    | none => none
    | some (x, r1) =>
      match expectChar ',' (skipWs r1) with
      | none => none
      | some r2 =>
        match parseNum (skipWs r2) with
        | none => none
        | some (y, r3) =>
          match skipWs r3 with
          | ']' :: r4 => some ((x, y, false), r4)
          | ',' :: r5 =>
            match skipWs r5 with
            | '-' :: '1' :: r6 =>
              match skipWs r6 with
              | ']' :: r7 => some ((x, y, true), r7)
              | _ => none
            | _ => none
          | _ => none
  | _ => none

lemma skipWs_suffix (cs : List Char) : (skipWs cs).IsSuffix cs :=
  List.dropWhile_suffix jsWs

lemma skipWs_length_le' (cs : List Char) : (skipWs cs).length ≤ cs.length :=
  (skipWs_suffix cs).length_le

lemma parseSign_suffix (cs : List Char) : (parseSign cs).2.IsSuffix cs := by
  rcases cs with _ | ⟨c, t⟩
  · exact List.nil_suffix
  · by_cases hc : c = '-'
    · subst hc
      exact ⟨['-'], rfl⟩
    · have : parseSign (c :: t) = (false, c :: t) := by
        rcases c with ⟨v⟩
        simp only [parseSign]
        split
        · rename_i heq
          exact absurd (by injection heq) hc
        · rfl
      rw [this]

lemma parseFrac_suffix (v : ℚ) (cs2 : List Char) : (parseFrac v cs2).2.IsSuffix cs2 := by
  rcases cs2 with _ | ⟨c, t⟩
  · exact List.nil_suffix
  · by_cases hc : c = '.'
    · subst hc
      simp only [parseFrac]
      split
      · exact List.suffix_refl _
      · exact (List.dropWhile_suffix _).trans ⟨['.'], rfl⟩
    · have : parseFrac v (c :: t) = (v, c :: t) := by
        simp only [parseFrac]
        split
        · rename_i heq
          exact absurd (by injection heq) hc
        · rfl
      rw [this]

lemma parseNum_suffix (cs : List Char) (q : ℚ) (r : List Char)
    (h : parseNum cs = some (q, r)) : r.IsSuffix cs := by
  simp only [parseNum] at h
  split at h
  · simp at h
  · have hr : r = (parseFrac (digitsToNat ((parseSign cs).2.takeWhile Char.isDigit) : ℚ)
        ((parseSign cs).2.dropWhile Char.isDigit)).2 := by
      have := Option.some.inj h
      exact (congrArg Prod.snd this).symm
    rw [hr]
    exact ((parseFrac_suffix _ _).trans (List.dropWhile_suffix _)).trans (parseSign_suffix cs)

lemma expectChar_suffix (c : Char) (cs r : List Char) (h : expectChar c cs = some r) :
    r.length < cs.length := by
  rcases cs with _ | ⟨x, t⟩
  · simp [expectChar] at h
  · simp only [expectChar] at h
    split at h
    · cases h; simp
    · simp at h

lemma matchAt_length (cs : List Char) (t : ℚ × ℚ × Bool) (r : List Char)
    (h : matchAt cs = some (t, r)) : r.length < cs.length := by
  rcases cs with _ | ⟨c, cs0⟩
  · simp [matchAt] at h
  · by_cases hc : c = '['
    · subst hc
      simp only [matchAt] at h
      cases h1 : parseNum (skipWs cs0) with
      | none => rw [h1] at h; simp at h
      | some v1 =>
        obtain ⟨x, r1⟩ := v1
        rw [h1] at h
        simp only [] at h
        cases h2 : expectChar ',' (skipWs r1) with
        | none => rw [h2] at h; simp at h
        | some r2 =>
          rw [h2] at h
          simp only [] at h
          cases h3 : parseNum (skipWs r2) with
          | none => rw [h3] at h; simp at h
          | some v3 =>
            obtain ⟨y, r3⟩ := v3
            rw [h3] at h
            simp only [] at h
            have hr1 : r1.length ≤ cs0.length :=
              le_trans ((parseNum_suffix _ _ _ h1).length_le) (skipWs_length_le' cs0)
            have hr2 : r2.length < r1.length :=
              lt_of_lt_of_le (expectChar_suffix _ _ _ h2) (skipWs_length_le' r1)
            have hr3 : r3.length ≤ r2.length :=
              le_trans ((parseNum_suffix _ _ _ h3).length_le) (skipWs_length_le' r2)
            have hs3 : (skipWs r3).length ≤ r3.length := skipWs_length_le' r3
            cases h4 : skipWs r3 with
            | nil => rw [h4] at h; simp at h
            | cons c4 r4 =>
              rw [h4] at h
              by_cases hc4 : c4 = ']'
              · subst hc4
                simp only [] at h
                cases h
                have e4 : (skipWs r3).length = r.length + 1 := by rw [h4]; rfl
                simp only [List.length_cons]
                omega
              · by_cases hc4' : c4 = ','
                · subst hc4'
                  simp only [] at h
                  cases h5 : skipWs r4 with
                  | nil => rw [h5] at h; simp at h
                  | cons c5 r5 =>
                    rw [h5] at h
                    rcases r5 with _ | ⟨c6, r6⟩
                    · by_cases hx : c5 = '-' <;> simp [hx] at h
                    · by_cases hx5 : c5 = '-'
                      · subst hx5
                        by_cases hx6 : c6 = '1'
                        · subst hx6
                          simp only [] at h
                          cases h6 : skipWs r6 with
                          | nil => rw [h6] at h; simp at h
                          | cons c7 r7 =>
                            rw [h6] at h
                            by_cases hc7 : c7 = ']'
                            · subst hc7
                              simp only [] at h
                              cases h
                              have e6 : (skipWs r6).length = r.length + 1 := by rw [h6]; rfl
                              have e5 : (skipWs r4).length = r6.length + 2 := by rw [h5]; rfl
                              have e4 : (skipWs r3).length = r4.length + 1 := by rw [h4]; rfl
                              have q4 : (skipWs r4).length ≤ r4.length := skipWs_length_le' r4
                              have q6 : (skipWs r6).length ≤ r6.length := skipWs_length_le' r6
                              simp only [List.length_cons]
                              omega
                            · simp [hc7] at h
                        · simp [hx6] at h
                      · simp [hx5] at h
                · simp [hc4, hc4'] at h
    · have : matchAt (c :: cs0) = none := by
        rcases c with ⟨v⟩
        simp only [matchAt]
        split
        · rename_i heq
          exact absurd (by injection heq) hc
        · rfl
      rw [this] at h
      exact absurd h (by simp)

/-- The `exec` loop over one block of text, fuelled (the fuel only serves
structural recursion; `length` fuel always suffices, see
`scanTokensF_congr`): try a match at the current position, emit it and resume
after its end, otherwise advance one character. -/
def scanTokensF : ℕ → List Char → List (ℚ × ℚ × Bool)
  | 0, _ => []
  | _ + 1, [] => []
  | fuel + 1, c :: cs =>
    match matchAt (c :: cs) with
    | some (t, rest) => t :: scanTokensF fuel rest
    | none => scanTokensF fuel cs

def scanTokens (cs : List Char) : List (ℚ × ℚ × Bool) := scanTokensF cs.length cs

/-- Any fuel of at least the input length gives the same scan. -/
lemma scanTokensF_congr :
    ∀ (f1 f2 : ℕ) (cs : List Char), cs.length ≤ f1 → cs.length ≤ f2 →
      scanTokensF f1 cs = scanTokensF f2 cs := by
  intro f1
  induction f1 with
  | zero =>
    intro f2 cs h1 _
    have : cs = [] := by
      rcases cs with _ | _
      · rfl
      · simp at h1
    subst this
    cases f2 <;> rfl
  | succ f1 ih =>
    intro f2 cs h1 h2
    rcases cs with _ | ⟨c, cs0⟩
    · cases f2 <;> rfl
    · rcases f2 with _ | f2
      · simp at h2
      · simp only [scanTokensF]
        cases hm : matchAt (c :: cs0) with
        | none =>
          simp only []
          exact ih f2 cs0 (by simpa using h1) (by simpa using h2)
        | some v =>
          obtain ⟨t, rest⟩ := v
          simp only []
          have hlt := matchAt_length _ _ _ hm
          rw [ih f2 rest
            (by simp only [List.length_cons] at h1 hlt; omega)
            (by simp only [List.length_cons] at h2 hlt; omega)]

lemma scanTokens_cons_some (c : Char) (cs : List Char) (t : ℚ × ℚ × Bool)
    (rest : List Char) (h : matchAt (c :: cs) = some (t, rest)) :
    scanTokens (c :: cs) = t :: scanTokens rest := by
  have hlt := matchAt_length _ _ _ h
  simp only [scanTokens, List.length_cons, scanTokensF, h]
  rw [scanTokensF_congr cs.length rest.length rest (by simp at hlt; omega) le_rfl]

lemma scanTokens_cons_none (c : Char) (cs : List Char)
    (h : matchAt (c :: cs) = none) : scanTokens (c :: cs) = scanTokens cs := by
  simp only [scanTokens, List.length_cons, scanTokensF, h]

/-- Line-ending normalization: `replace(/\r\n/g, '\n')` (part_002, line 46). -/
def normalizeText : List Char → List Char
  | [] => []
  | '\r' :: '\n' :: rest => '\n' :: normalizeText rest
  | c :: rest => c :: normalizeText rest

/-- `trim`: strip leading and trailing whitespace. -/
def trimChars (cs : List Char) : List Char :=
  ((cs.dropWhile jsWs).reverse.dropWhile jsWs).reverse

/-- How many characters after the leading newline the separator regex
`\n\s*\n` consumes: the maximal whitespace run, cut after its last newline
(greedy `\s*`, backtracking until a final `\n` can match). -/
def sepExtra (rest : List Char) : ℕ :=
  let w := rest.takeWhile jsWs
  w.length - (w.reverse.takeWhile (fun c => !(c == '\n'))).length

/-- `split(/\n\s*\n/)` (part_002, line 48): pieces between blank-line
separators. -/
def splitBlocks : List Char → List (List Char)
  | [] => [[]]
  | c :: rest =>
    if c = '\n' ∧ '\n' ∈ rest.takeWhile jsWs then
      [] :: splitBlocks (rest.drop (sepExtra rest))
    else
      match splitBlocks rest with
      | [] => [[c]]
      | b :: bs => (c :: b) :: bs
termination_by l => l.length
decreasing_by
  · simp only [List.length_cons, List.length_drop]
    omega
  · simp

/-- The per-block shape assembly (part_002, lines 57–87): push each matched
point onto the current shape; a closure marker finalizes the shape as closed
and starts a fresh one; leftovers are emitted open. -/
def blockShapesGo : List (ℚ × ℚ × Bool) → List Point → List Shape
  | [], cur => if 0 < cur.length then [⟨cur, false⟩] else []
  | (x, y, sep) :: ts, cur =>
    let cur2 := cur ++ [(x, y)]
    if sep then
      (if 0 < cur2.length then [⟨cur2, true⟩] else []) ++ blockShapesGo ts []
    else blockShapesGo ts cur2

def blockShapes (tokens : List (ℚ × ℚ × Bool)) : List Shape :=
  blockShapesGo tokens []

/-- The full deserializer (part_002, lines 39–91): an all-whitespace input
yields no shapes; otherwise normalize line endings, trim, split into blocks
on blank lines, skip whitespace-only blocks, and assemble each block's
matches. -/
def deserializeChars (cs : List Char) : List Shape :=
  if (trimChars cs).isEmpty then []
  else
    (splitBlocks (trimChars (normalizeText cs))).flatMap
      (fun b => if (trimChars b).isEmpty then [] else blockShapes (scanTokens b))

def deserialize (s : String) : List Shape := deserializeChars s.data

/-! ## The serializer (`shapesToString`, part_002 lines 16–32) -/

/-- `parseFloat(v.toFixed(2))`: rounding to two decimal places — except that
for magnitudes at or above `10^21` the specification of `toFixed` returns
`ToString(x)` unchanged, so no rounding happens and `parseFloat` recovers the
value exactly.  (JavaScript breaks ties by the binary value of the double;
ties never arise in the round-trip claims, where inputs are already
two-decimal.) -/
def round2 (q : ℚ) : ℚ :=
  if (10 : ℚ) ^ 21 ≤ |q| then q else (round (q * 100) : ℚ) / 100

def digitChar (n : ℕ) : Char :=
  match n with
  | 0 => '0' | 1 => '1' | 2 => '2' | 3 => '3' | 4 => '4'
  | 5 => '5' | 6 => '6' | 7 => '7' | 8 => '8' | _ => '9'

/-- Decimal digits of a natural number, most significant first. -/
def natChars (n : ℕ) : List Char :=
  if n < 10 then [digitChar n]
  else natChars (n / 10) ++ [digitChar (n % 10)]
decreasing_by exact Nat.div_lt_self (by omega) (by omega)

/-- The fractional digits of `f/100` for `0 < f < 100`, trailing zero
dropped — matching how JavaScript prints such a number. -/
def fracChars (f : ℕ) : List Char :=
  if f % 10 = 0 then [digitChar (f / 10)]
  else [digitChar (f / 10), digitChar (f % 10)]

/-- Exponent notation `d[.ddd…]e+EE` for a natural number: significand is the
decimal digit string with trailing zeros stripped and a point after the first
digit, exponent is one less than the digit count — JavaScript's
`Number`-to-string for integers of magnitude at least `10^21` (every IEEE
double in that regime is an integer; under the file's exact-rational
convention the significand carries the exact digits). -/
def sciChars (n : ℕ) : List Char :=
  let ds := natChars n
  let sig := (ds.reverse.dropWhile (fun c => c == '0')).reverse
  match sig with
  | [] => ['0']
  | d :: rest =>
    d :: ((if rest.isEmpty then [] else '.' :: rest) ++
      'e' :: '+' :: natChars (ds.length - 1))

/-- Decimal rendering of a serializer coordinate, i.e. a `round2` output:
below magnitude `10^21` a two-decimal value `k/100` prints as sign, integer
part, and the fractional digits when nonzero (no trailing zeros, no
exponent); at or above `10^21` JavaScript switches to exponent notation
(`"1e+21"`), rendered by `sciChars` on the integer magnitude (the
fractional part is dropped there: no IEEE double of that magnitude has
one). -/
def qChars (q : ℚ) : List Char :=
  let k : ℤ := round (q * 100)
  let n : ℕ := k.natAbs
  if (10 : ℚ) ^ 21 ≤ |q| then
    (if q < 0 then ['-'] else []) ++ sciChars (⌊|q|⌋).toNat
  else
    (if k < 0 then ['-'] else []) ++
      natChars (n / 100) ++
      (if n % 100 = 0 then [] else '.' :: fracChars (n % 100))

/-- One serialized point (part_002, lines 19–27): `[x,y]`, with the closure
marker `,-1` appended exactly on the last point of a closed shape. -/
def pointChars (closeMark : Bool) (p : Point) : List Char :=
  '[' :: (qChars (round2 p.1) ++ ',' :: qChars (round2 p.2) ++
    (if closeMark then [',', '-', '1'] else []) ++ [']'])

/-- The per-point strings of one shape, in order; only the last point of a
closed shape carries the marker (the source tests `i === length - 1`). -/
def pointsChars (isClosed : Bool) : List Point → List (List Char)
  | [] => []
  | [p] => [pointChars isClosed p]
  | p :: ps => pointChars false p :: pointsChars isClosed ps

/-- `join(sep)`. -/
def joinSep (sep : List Char) : List (List Char) → List Char
  | [] => []
  | [b] => b
  | b :: bs => b ++ sep ++ joinSep sep bs

/-- One shape's block (part_002, lines 18–30): empty for a pointless shape,
otherwise the points joined by `,\n` and wrapped in `[\n … \n]`.  (The
source's second guard, `if (!pointsStr) return ''`, can never fire: each
point renders non-empty.) -/
def shapeChars (sh : Shape) : List Char :=
  if sh.points.isEmpty then []
  else '[' :: '\n' :: (joinSep [',', '\n'] (pointsChars sh.isClosed sh.points) ++ ['\n', ']'])

/-- `shapesToString` (part_002, lines 16–32): non-empty blocks joined by a
blank line. -/
def shapesToChars (shapes : List Shape) : List Char :=
  joinSep ['\n', '\n'] ((shapes.map shapeChars).filter (fun b => !b.isEmpty))

def shapesToString (shapes : List Shape) : String := ⟨shapesToChars shapes⟩

/-! ## Matching is insensitive to what follows the match -/

lemma parseSign_cons_other (c : Char) (t : List Char) (hc : c ≠ '-') :
    parseSign (c :: t) = (false, c :: t) := by
  simp only [parseSign]
  split
  · rename_i heq
    injection heq with h1 _
    exact absurd h1 hc
  · rfl

lemma parseFrac_cons_other (v : ℚ) (c : Char) (t : List Char) (hc : c ≠ '.') :
    parseFrac v (c :: t) = (v, c :: t) := by
  simp only [parseFrac]
  split
  · rename_i heq
    injection heq with h1 _
    exact absurd h1 hc
  · rfl

lemma dropWhile_append_of_ne_nil (p : Char → Bool) (l w : List Char)
    (h : l.dropWhile p ≠ []) : (l ++ w).dropWhile p = l.dropWhile p ++ w := by
  induction l with
  | nil => simp at h
  | cons c t ih =>
    by_cases hp : p c = true
    · rw [List.cons_append, List.dropWhile_cons_of_pos hp, List.dropWhile_cons_of_pos hp]
      exact ih (by rwa [List.dropWhile_cons_of_pos hp] at h)
    · rw [List.cons_append, List.dropWhile_cons_of_neg hp, List.dropWhile_cons_of_neg hp]
      rfl

lemma takeWhile_append_of_dropWhile_ne_nil (p : Char → Bool) (l w : List Char)
    (h : l.dropWhile p ≠ []) : (l ++ w).takeWhile p = l.takeWhile p := by
  induction l with
  | nil => simp at h
  | cons c t ih =>
    by_cases hp : p c = true
    · rw [List.cons_append, List.takeWhile_cons_of_pos hp, List.takeWhile_cons_of_pos hp,
        ih (by rwa [List.dropWhile_cons_of_pos hp] at h)]
    · rw [List.cons_append, List.takeWhile_cons_of_neg hp, List.takeWhile_cons_of_neg hp]

lemma skipWs_append_of_ne_nil (u w : List Char) (h : skipWs u ≠ []) :
    skipWs (u ++ w) = skipWs u ++ w :=
  dropWhile_append_of_ne_nil jsWs u w h

lemma parseSign_append (u w : List Char) (hu : u ≠ []) :
    parseSign (u ++ w) = ((parseSign u).1, (parseSign u).2 ++ w) := by
  rcases u with _ | ⟨c, t⟩
  · exact absurd rfl hu
  · by_cases hc : c = '-'
    · subst hc; rfl
    · rw [List.cons_append, parseSign_cons_other c t hc,
        parseSign_cons_other c (t ++ w) hc]
      rfl

lemma parseFrac_extend (v : ℚ) (cs2 w r : List Char) (val : ℚ)
    (h : parseFrac v cs2 = (val, r)) (hne : r ≠ []) (hdot : r.head? ≠ some '.')
    (hcs2 : cs2 ≠ []) :
    parseFrac v (cs2 ++ w) = (val, r ++ w) := by
  rcases cs2 with _ | ⟨c2, t2⟩
  · exact absurd rfl hcs2
  · by_cases hc2 : c2 = '.'
    · subst hc2
      simp only [parseFrac] at h
      by_cases hfs : (t2.takeWhile Char.isDigit).isEmpty
      · rw [if_pos hfs] at h
        have hr : r = '.' :: t2 := (congrArg Prod.snd h).symm
        rw [hr] at hdot
        simp at hdot
      · rw [if_neg hfs] at h
        have hval : val = v + (digitsToNat (t2.takeWhile Char.isDigit) : ℚ) /
            (10 : ℚ) ^ (t2.takeWhile Char.isDigit).length := (congrArg Prod.fst h).symm
        have hr : r = t2.dropWhile Char.isDigit := (congrArg Prod.snd h).symm
        have hdw : t2.dropWhile Char.isDigit ≠ [] := by rw [← hr]; exact hne
        rw [List.cons_append]
        simp only [parseFrac]
        rw [takeWhile_append_of_dropWhile_ne_nil _ _ _ hdw]
        rw [if_neg hfs]
        rw [dropWhile_append_of_ne_nil _ _ _ hdw]
        rw [hval, hr]
    · have h1 : parseFrac v (c2 :: t2) = (v, c2 :: t2) := parseFrac_cons_other v c2 t2 hc2
      rw [h1] at h
      have hval : val = v := (congrArg Prod.fst h).symm
      have hr : r = c2 :: t2 := (congrArg Prod.snd h).symm
      rw [List.cons_append, parseFrac_cons_other v c2 (t2 ++ w) hc2, hval, hr]
      rfl

lemma parseNum_nil : parseNum [] = none := rfl

lemma parseNum_extend (u w : List Char) (q : ℚ) (r : List Char)
    (h : parseNum u = some (q, r)) (hne : r ≠ []) (hdot : r.head? ≠ some '.') :
    parseNum (u ++ w) = some (q, r ++ w) := by
  have hu : u ≠ [] := by
    intro h0; subst h0; simp [parseNum_nil] at h
  rcases hps : parseSign u with ⟨neg, cs1⟩
  simp only [parseNum, hps] at h
  split at h
  · exact absurd h (by simp)
  · rename_i hds
    rcases hpf : parseFrac (digitsToNat (cs1.takeWhile Char.isDigit) : ℚ)
        (cs1.dropWhile Char.isDigit) with ⟨val, rest⟩
    rw [hpf] at h
    simp only [] at h
    have h' := Option.some.inj h
    have hq : (if neg = true then -val else val) = q := congrArg Prod.fst h'
    have hr : rest = r := congrArg Prod.snd h'
    have hcs2 : cs1.dropWhile Char.isDigit ≠ [] := by
      intro h0
      rw [h0] at hpf
      have : rest = [] := by
        have : parseFrac (digitsToNat (cs1.takeWhile Char.isDigit) : ℚ) [] =
            ((digitsToNat (cs1.takeWhile Char.isDigit) : ℚ), ([] : List Char)) := rfl
        rw [this] at hpf
        exact (congrArg Prod.snd hpf).symm
      rw [hr] at this
      exact hne this
    simp only [parseNum]
    rw [parseSign_append u w hu, hps]
    simp only []
    rw [takeWhile_append_of_dropWhile_ne_nil _ _ _ hcs2]
    rw [if_neg hds]
    rw [dropWhile_append_of_ne_nil _ _ _ hcs2]
    rw [parseFrac_extend _ _ _ _ _ hpf (hr ▸ hne) (hr ▸ hdot) hcs2]
    simp only []
    rw [hq, hr]

lemma expectChar_eq_some (c : Char) (cs r : List Char) :
    expectChar c cs = some r ↔ cs = c :: r := by
  rcases cs with _ | ⟨x, t⟩
  · simp [expectChar]
  · simp only [expectChar]
    split
    · rename_i hx
      subst hx
      constructor
      · intro h; cases h; rfl
      · intro h; injection h with h1 h2; rw [h2]
    · rename_i hx
      constructor
      · intro h; simp at h
      · intro h
        injection h with h1 h2
        exact absurd h1 hx

/-- A successful match is preserved, with the same token, when more text is
appended after the input. -/
lemma matchAt_extend (u w : List Char) (t : ℚ × ℚ × Bool) (r : List Char)
    (h : matchAt u = some (t, r)) : matchAt (u ++ w) = some (t, r ++ w) := by
  rcases u with _ | ⟨c, u1⟩
  · simp [matchAt] at h
  · by_cases hc : c = '['
    · subst hc
      simp only [matchAt] at h
      rw [List.cons_append]
      simp only [matchAt]
      cases h1 : parseNum (skipWs u1) with
      | none => rw [h1] at h; simp at h
      | some v1 =>
        obtain ⟨x, r1⟩ := v1
        rw [h1] at h
        simp only [] at h
        cases h2 : expectChar ',' (skipWs r1) with
        | none => rw [h2] at h; simp at h
        | some r2 =>
          rw [h2] at h
          simp only [] at h
          have hsw1 : skipWs u1 ≠ [] := by
            intro h0; rw [h0, parseNum_nil] at h1; exact absurd h1 (by simp)
          have hr1ne : r1 ≠ [] := by
            intro h0
            subst h0
            simp [skipWs, expectChar] at h2
          have hr1dot : r1.head? ≠ some '.' := by
            intro h0
            rcases r1 with _ | ⟨c1, t1⟩
            · simp at h0
            · have hc1 : c1 = '.' := by simpa using h0
              subst hc1
              rw [show skipWs ('.' :: t1) = '.' :: t1 from
                List.dropWhile_cons_of_neg (by decide)] at h2
              simp [expectChar] at h2
          have hsk1 : skipWs (u1 ++ w) = skipWs u1 ++ w :=
            skipWs_append_of_ne_nil u1 w hsw1
          rw [hsk1, parseNum_extend _ w _ _ h1 hr1ne hr1dot]
          simp only []
          have hr1eq : skipWs r1 = ',' :: r2 := (expectChar_eq_some _ _ _).mp h2
          have hsw2 : skipWs r1 ≠ [] := by rw [hr1eq]; simp
          rw [skipWs_append_of_ne_nil r1 w hsw2, hr1eq]
          rw [show expectChar ',' ((',' :: r2) ++ w) = some (r2 ++ w) from rfl]
          simp only []
          cases h3 : parseNum (skipWs r2) with
          | none => rw [h3] at h; simp at h
          | some v3 =>
            obtain ⟨y, r3⟩ := v3
            rw [h3] at h
            simp only [] at h
            have hr3ne : r3 ≠ [] := by
              intro h0
              subst h0
              rw [show skipWs ([] : List Char) = [] from rfl] at h
              simp at h
            have hr3dot : r3.head? ≠ some '.' := by
              intro h0
              rcases r3 with _ | ⟨c3, t3⟩
              · simp at h0
              · have hc3 : c3 = '.' := by simpa using h0
                subst hc3
                rw [show skipWs ('.' :: t3) = '.' :: t3 from
                  List.dropWhile_cons_of_neg (by decide)] at h
                simp at h
            cases h4 : skipWs r3 with
            | nil => rw [h4] at h; simp at h
            | cons c4 r4 =>
              rw [h4] at h
              have hsw3 : skipWs r3 ≠ [] := by rw [h4]; simp
              rw [skipWs_append_of_ne_nil r2 w (by
                intro h0; rw [h0, parseNum_nil] at h3; exact absurd h3 (by simp))]
              rw [parseNum_extend _ w _ _ h3 hr3ne hr3dot]
              simp only []
              rw [skipWs_append_of_ne_nil r3 w hsw3, h4]
              by_cases hc4 : c4 = ']'
              · subst hc4
                simp only [] at h
                cases h
                rfl
              · by_cases hc4' : c4 = ','
                · subst hc4'
                  simp only [] at h
                  rw [List.cons_append]
                  simp only []
                  cases h5 : skipWs r4 with
                  | nil => rw [h5] at h; simp at h
                  | cons c5 r5 =>
                    rw [h5] at h
                    rcases r5 with _ | ⟨c6, r6⟩
                    · have : skipWs (r4 ++ w) = (c5 :: []) ++ w := by
                        rw [skipWs_append_of_ne_nil r4 w (by rw [h5]; simp), h5]
                      rw [this]
                      by_cases hx : c5 = '-'
                      · subst hx
                        simp only [List.cons_append, List.nil_append] at h ⊢
                        rcases w with _ | ⟨cw, tw⟩
                        · simp at h
                        · by_cases hw : cw = '1'
                          · subst hw
                            simp at h
                          · simp [hw] at h
                      · simp [hx] at h
                    · by_cases hx5 : c5 = '-'
                      · subst hx5
                        by_cases hx6 : c6 = '1'
                        · subst hx6
                          simp only [] at h
                          have : skipWs (r4 ++ w) = ('-' :: '1' :: r6) ++ w := by
                            rw [skipWs_append_of_ne_nil r4 w (by rw [h5]; simp), h5]
                          rw [this]
                          simp only [List.cons_append]
                          cases h6 : skipWs r6 with
                          | nil => rw [h6] at h; simp at h
                          | cons c7 r7 =>
                            rw [h6] at h
                            by_cases hc7 : c7 = ']'
                            · subst hc7
                              simp only [] at h
                              cases h
                              rw [skipWs_append_of_ne_nil r6 w (by rw [h6]; simp), h6]
                              rfl
                            · simp [hc7] at h
                        · simp [hx6] at h
                      · simp [hx5] at h
                · simp [hc4, hc4'] at h
    · have hnone : matchAt (c :: u1) = none := by
        rcases c with ⟨v⟩
        simp only [matchAt]
        split
        · rename_i heq
          exact absurd (by injection heq) hc
        · rfl
      rw [hnone] at h
      exact absurd h (by simp)

lemma scanTokens_nil : scanTokens [] = [] := rfl

lemma scanTokens_eq_nil_imp (l : List Char) (h : scanTokens l = []) :
    ∀ i, matchAt (l.drop i) = none := by
  induction l with
  | nil => intro i; rcases i with _ | i <;> rfl
  | cons c cs ih =>
    intro i
    cases hm : matchAt (c :: cs) with
    | some v =>
      obtain ⟨t, rest⟩ := v
      rw [scanTokens_cons_some c cs t rest hm] at h
      simp at h
    | none =>
      rw [scanTokens_cons_none c cs hm] at h
      rcases i with _ | i
      · exact hm
      · exact ih h i

lemma scanTokens_nil_of_no_match (l : List Char)
    (h : ∀ i, matchAt (l.drop i) = none) : scanTokens l = [] := by
  induction l with
  | nil => rfl
  | cons c cs ih =>
    rw [scanTokens_cons_none c cs (h 0)]
    exact ih (fun i => h (i + 1))

/-- If no position of `l` starts a match, no position of any infix of `l`
does either (a match inside the infix would extend to a match inside `l`). -/
lemma no_match_infix (l pre b post : List Char) (hl : l = pre ++ b ++ post)
    (h : ∀ i, matchAt (l.drop i) = none) : ∀ j, matchAt (b.drop j) = none := by
  intro j
  by_cases hj : j ≤ b.length
  · cases hm : matchAt (b.drop j) with
    | none => rfl
    | some v =>
      obtain ⟨t, r⟩ := v
      have hext := matchAt_extend _ post _ _ hm
      have hdrop : l.drop (pre.length + j) = b.drop j ++ post := by
        subst hl
        rw [List.append_assoc, List.drop_append j, List.drop_append_of_le_length hj]
      rw [← hdrop] at hext
      rw [h (pre.length + j)] at hext
      exact absurd hext (by simp)
  · rw [List.drop_eq_nil_of_le (by omega)]
    rfl

lemma splitBlocks_ne_nil (l : List Char) : splitBlocks l ≠ [] := by
  rcases l with _ | ⟨c, rest⟩
  · simp [splitBlocks]
  · rw [splitBlocks]
    split
    · simp
    · split <;> simp

/-- The first piece returned by `splitBlocks` is a prefix of the input. -/
lemma splitBlocks_head_prefix :
    ∀ (n : ℕ) (l : List Char), l.length ≤ n →
      ∃ post, l = (splitBlocks l).headD [] ++ post := by
  intro n
  induction n with
  | zero =>
    intro l h
    have : l = [] := by
      rcases l with _ | _
      · rfl
      · simp at h
    subst this
    exact ⟨[], by simp [splitBlocks]⟩
  | succ n ih =>
    intro l hlen
    rcases l with _ | ⟨c, rest⟩
    · exact ⟨[], by simp [splitBlocks]⟩
    · rw [splitBlocks]
      split
      · exact ⟨c :: rest, rfl⟩
      · cases hsb : splitBlocks rest with
        | nil => exact absurd hsb (splitBlocks_ne_nil rest)
        | cons b0 bs =>
          obtain ⟨post, hpost⟩ := ih rest (by simpa using hlen)
          rw [hsb] at hpost
          simp only [List.headD_cons] at hpost ⊢
          exact ⟨post, by rw [List.cons_append, ← hpost]⟩

/-- Every piece returned by `splitBlocks` is an infix of the input. -/
lemma splitBlocks_infix :
    ∀ (n : ℕ) (l : List Char), l.length ≤ n →
      ∀ b ∈ splitBlocks l, ∃ pre post, l = pre ++ b ++ post := by
  intro n
  induction n with
  | zero =>
    intro l h b hb
    have : l = [] := by
      rcases l with _ | _
      · rfl
      · simp at h
    subst this
    simp [splitBlocks] at hb
    subst hb
    exact ⟨[], [], rfl⟩
  | succ n ih =>
    intro l hlen b hb
    rcases l with _ | ⟨c, rest⟩
    · simp [splitBlocks] at hb
      subst hb
      exact ⟨[], [], rfl⟩
    · rw [splitBlocks] at hb
      split at hb
      · rw [List.mem_cons] at hb
        rcases hb with hb | hb
        · subst hb
          exact ⟨[], c :: rest, rfl⟩
        · have hlen' : (rest.drop (sepExtra rest)).length ≤ n := by
            simp only [List.length_drop]
            simp only [List.length_cons] at hlen
            omega
          obtain ⟨pre, post, hdecomp⟩ := ih _ hlen' b hb
          refine ⟨c :: rest.take (sepExtra rest) ++ pre, post, ?_⟩
          have hr : c :: rest =
              c :: rest.take (sepExtra rest) ++ rest.drop (sepExtra rest) := by
            rw [List.cons_append, List.take_append_drop]
          rw [hr, hdecomp]
          simp [List.append_assoc]
      · cases hsb : splitBlocks rest with
        | nil => exact absurd hsb (splitBlocks_ne_nil rest)
        | cons b0 bs =>
          rw [hsb] at hb
          rw [List.mem_cons] at hb
          rcases hb with hb | hb
          · subst hb
            obtain ⟨post, hpost⟩ := splitBlocks_head_prefix rest.length rest le_rfl
            rw [hsb] at hpost
            simp only [List.headD_cons] at hpost
            refine ⟨[], post, ?_⟩
            rw [List.nil_append, List.cons_append, ← hpost]
          · obtain ⟨pre, post, hdecomp⟩ := ih rest (by simpa using hlen) b
              (by rw [hsb]; exact List.mem_cons_of_mem b0 hb)
            refine ⟨c :: pre, post, ?_⟩
            rw [hdecomp]
            simp [List.append_assoc]

lemma trimChars_infix (l : List Char) : ∃ pre post, l = pre ++ trimChars l ++ post := by
  refine ⟨l.takeWhile jsWs, ((l.dropWhile jsWs).reverse.takeWhile jsWs).reverse, ?_⟩
  unfold trimChars
  conv_lhs => rw [← List.takeWhile_append_dropWhile (p := jsWs) (l := l)]
  rw [List.append_assoc]
  congr 1
  conv_lhs => rw [← List.reverse_reverse (l.dropWhile jsWs)]
  rw [← List.reverse_append]
  congr 1
  rw [List.takeWhile_append_dropWhile]

/-! ## Claim C7: the deserializer never fails, and no tokens means no shapes -/

/-- **C7**: the deserializer is a total function — it returns a shape list on
*every* input string (the embedding `deserialize` is defined on all of
`String`, mirroring source code whose only operations are regex scans and
`parseFloat`, none of which throw) — and whenever the input contains no
coordinate-like token (no match of the coordinate regex anywhere in the
line-ending-normalized text), the result is the empty document. -/
theorem deserialize_no_token_empty (s : String)
    (h : scanTokens (normalizeText s.data) = []) : deserialize s = [] := by
  unfold deserialize deserializeChars
  by_cases ht : (trimChars s.data).isEmpty
  · rw [if_pos ht]
  · rw [if_neg ht]
    rw [List.flatMap_eq_nil_iff]
    intro b hb
    by_cases hbt : (trimChars b).isEmpty
    · rw [if_pos hbt]
    · rw [if_neg hbt]
      have hnm : ∀ i, matchAt ((normalizeText s.data).drop i) = none :=
        scanTokens_eq_nil_imp _ h
      obtain ⟨p1, p2, htr⟩ := trimChars_infix (normalizeText s.data)
      obtain ⟨pre, post, hbd⟩ :=
        splitBlocks_infix (trimChars (normalizeText s.data)).length _ le_rfl b hb
      have hfull : normalizeText s.data = (p1 ++ pre) ++ b ++ (post ++ p2) := by
        rw [htr, hbd]
        simp [List.append_assoc]
      have hblocknm := no_match_infix _ _ _ _ hfull hnm
      rw [scanTokens_nil_of_no_match b hblocknm]
      rfl

/-- Witness for C7 at a concrete tokenless input. -/
theorem deserialize_no_token_empty_witness :
    scanTokens (normalizeText ("hello [1, ] world").data) = [] ∧
    deserialize "hello [1, ] world" = [] :=
  ⟨by decide, deserialize_no_token_empty "hello [1, ] world" (by decide)⟩

/-! ## Claim C5: round-trip of serializer output.  Digit-level facts first. -/

lemma digitChar_isDigit (n : ℕ) : (digitChar n).isDigit = true := by
  unfold digitChar
  split <;> decide

lemma digitChar_not_ws (n : ℕ) : jsWs (digitChar n) = false := by
  unfold digitChar
  split <;> decide

lemma digitChar_ne_nl (n : ℕ) : digitChar n ≠ '\n' := by
  unfold digitChar
  split <;> decide

lemma digitVal_digitChar (n : ℕ) (h : n < 10) : digitVal (digitChar n) = n := by
  interval_cases n <;> decide

lemma isDigit_not_ws (c : Char) (h : c.isDigit = true) : jsWs c = false := by
  by_contra hws
  simp only [Bool.not_eq_false] at hws
  simp only [jsWs, Bool.or_eq_true, beq_iff_eq] at hws
  rcases hws with ((((h1 | h1) | h1) | h1) | h1) | h1 <;> subst h1 <;> simp at h

lemma natChars_ne_nil (n : ℕ) : natChars n ≠ [] := by
  rw [natChars]
  split
  · simp
  · simp

lemma natChars_all_digit : ∀ (n : ℕ), ∀ c ∈ natChars n, c.isDigit = true := by
  intro n
  induction n using Nat.strong_induction_on with
  | _ n ih =>
    intro c hc
    rw [natChars] at hc
    split at hc
    · simp only [List.mem_singleton] at hc
      subst hc
      exact digitChar_isDigit _
    · rename_i hn
      rw [List.mem_append] at hc
      rcases hc with hc | hc
      · exact ih (n / 10) (Nat.div_lt_self (by omega) (by omega)) c hc
      · simp only [List.mem_singleton] at hc
        subst hc
        exact digitChar_isDigit _

lemma digitsToNat_append_singleton (ds : List Char) (c : Char) :
    digitsToNat (ds ++ [c]) = 10 * digitsToNat ds + digitVal c := by
  unfold digitsToNat
  rw [List.foldl_append]
  rfl

lemma digitsToNat_natChars : ∀ (n : ℕ), digitsToNat (natChars n) = n := by
  intro n
  induction n using Nat.strong_induction_on with
  | _ n ih =>
    rw [natChars]
    split
    · rename_i hn
      show digitsToNat [digitChar n] = n
      unfold digitsToNat
      simp only [List.foldl_cons, List.foldl_nil]
      rw [Nat.mul_zero, Nat.zero_add]
      exact digitVal_digitChar n hn
    · rename_i hn
      rw [digitsToNat_append_singleton,
        ih (n / 10) (Nat.div_lt_self (by omega) (by omega)),
        digitVal_digitChar (n % 10) (Nat.mod_lt n (by omega))]
      omega

lemma fracChars_all_digit (f : ℕ) : ∀ c ∈ fracChars f, c.isDigit = true := by
  intro c hc
  unfold fracChars at hc
  split at hc <;> simp only [List.mem_cons, List.mem_singleton, List.not_mem_nil,
    or_false] at hc
  · subst hc; exact digitChar_isDigit _
  · rcases hc with hc | hc <;> (subst hc; exact digitChar_isDigit _)

lemma fracChars_ne_nil (f : ℕ) : fracChars f ≠ [] := by
  unfold fracChars
  split <;> simp

/-- The printed fraction digits recover `f/100`: value over `10^length`. -/
lemma fracChars_value (f : ℕ) (hf : f < 100) :
    (digitsToNat (fracChars f) : ℚ) / (10 : ℚ) ^ (fracChars f).length = (f : ℚ) / 100 := by
  unfold fracChars
  split
  · rename_i h10
    have : digitsToNat [digitChar (f / 10)] = f / 10 := by
      unfold digitsToNat
      simp only [List.foldl_cons, List.foldl_nil]
      rw [Nat.mul_zero, Nat.zero_add]
      exact digitVal_digitChar _ (by omega)
    rw [this]
    have hface : (10 : ℚ) ^ ([digitChar (f / 10)].length) = 10 := by norm_num
    rw [hface]
    have hf10 : (f : ℚ) = ((f / 10 : ℕ) : ℚ) * 10 := by
      have : f = (f / 10) * 10 := by omega
      rw [this]
      push_cast
      ring_nf
      rw [← this]
    rw [hf10]
    ring
  · rename_i h10
    have : digitsToNat [digitChar (f / 10), digitChar (f % 10)] = f := by
      show digitsToNat ([digitChar (f / 10)] ++ [digitChar (f % 10)]) = f
      rw [digitsToNat_append_singleton]
      have e1 : digitsToNat [digitChar (f / 10)] = f / 10 := by
        unfold digitsToNat
        simp only [List.foldl_cons, List.foldl_nil]
        rw [Nat.mul_zero, Nat.zero_add]
        exact digitVal_digitChar _ (by omega)
      rw [e1, digitVal_digitChar _ (by omega)]
      omega
    rw [this]
    norm_num

lemma takeWhile_all_append (p : Char → Bool) (l rest : List Char)
    (hl : ∀ c ∈ l, p c = true) (hr : ∀ c, rest.head? = some c → p c = false) :
    (l ++ rest).takeWhile p = l ∧ (l ++ rest).dropWhile p = rest := by
  induction l with
  | nil =>
    rcases rest with _ | ⟨c, t⟩
    · exact ⟨rfl, rfl⟩
    · have hc := hr c rfl
      constructor
      · simp only [List.nil_append]
        exact List.takeWhile_cons_of_neg (by simp [hc])
      · simp only [List.nil_append]
        exact List.dropWhile_cons_of_neg (by simp [hc])
  | cons a l ih =>
    have ha := hl a (List.mem_cons_self a l)
    obtain ⟨h1, h2⟩ := ih (fun c hc => hl c (List.mem_cons_of_mem _ hc))
    constructor
    · rw [List.cons_append, List.takeWhile_cons_of_pos ha, h1]
    · rw [List.cons_append, List.dropWhile_cons_of_pos ha, h2]

lemma isDigit_ne_minus (c : Char) (h : c.isDigit = true) : c ≠ '-' := by
  intro hc; subst hc; simp at h

lemma isDigit_ne_dot (c : Char) (h : c.isDigit = true) : c ≠ '.' := by
  intro hc; subst hc; simp at h

/-- Parsing back the unsigned decimal rendering of `n/100`. -/
lemma parseNum_unsigned (n : ℕ) (c : Char) (rest : List Char)
    (hcd : c.isDigit = false) (hcdot : c ≠ '.') :
    parseNum ((natChars (n / 100) ++
        (if n % 100 = 0 then [] else '.' :: fracChars (n % 100))) ++ c :: rest) =
      some ((n : ℚ) / 100, c :: rest) := by
  obtain ⟨d, ds, hnat⟩ : ∃ d ds, natChars (n / 100) = d :: ds := by
    rcases hn : natChars (n / 100) with _ | ⟨d, ds⟩
    · exact absurd hn (natChars_ne_nil _)
    · exact ⟨d, ds, rfl⟩
  have hd : d.isDigit = true := by
    apply natChars_all_digit (n / 100)
    rw [hnat]
    exact List.mem_cons_self d ds
  have hcast : ((n / 100 : ℕ) : ℚ) = (n : ℚ) / 100 ∨ n % 100 ≠ 0 := by
    by_cases hmod : n % 100 = 0
    · left
      have h2 : 100 * (n / 100) = n := by omega
      have hn' : (n : ℚ) = ((n / 100 : ℕ) : ℚ) * 100 := by
        calc (n : ℚ) = ((100 * (n / 100) : ℕ) : ℚ) := by rw [h2]
          _ = ((n / 100 : ℕ) : ℚ) * 100 := by push_cast; ring
      rw [hn']
      ring
    · right; exact hmod
  by_cases hmod : n % 100 = 0
  · rw [if_pos hmod, List.append_nil]
    have hparts := takeWhile_all_append Char.isDigit (natChars (n / 100)) (c :: rest)
      (natChars_all_digit _) (by intro x hx; injection hx with hx; subst hx; exact hcd)
    simp only [parseNum]
    rw [hnat] at hparts ⊢
    rw [List.cons_append, parseSign_cons_other d (ds ++ c :: rest) (isDigit_ne_minus d hd)]
    simp only []
    rw [← List.cons_append, hparts.1, hparts.2]
    rw [if_neg (by simp)]
    rw [parseFrac_cons_other _ c rest hcdot]
    simp only []
    rw [← hnat, digitsToNat_natChars]
    rcases hcast with hcast | hcast
    · rw [hcast]
      simp
    · exact absurd hmod hcast
  · rw [if_neg hmod]
    have hparts := takeWhile_all_append Char.isDigit (natChars (n / 100))
      ('.' :: (fracChars (n % 100) ++ c :: rest))
      (natChars_all_digit _) (by intro x hx; injection hx with hx; subst hx; decide)
    have hfparts := takeWhile_all_append Char.isDigit (fracChars (n % 100)) (c :: rest)
      (fracChars_all_digit _) (by intro x hx; injection hx with hx; subst hx; exact hcd)
    simp only [parseNum]
    have hassoc : (natChars (n / 100) ++ '.' :: fracChars (n % 100)) ++ c :: rest =
        natChars (n / 100) ++ '.' :: (fracChars (n % 100) ++ c :: rest) := by
      simp
    rw [hassoc, hnat]
    rw [List.cons_append, parseSign_cons_other d _ (isDigit_ne_minus d hd)]
    simp only []
    rw [← List.cons_append, ← hnat, hparts.1, hparts.2]
    rw [if_neg (by rw [hnat]; simp)]
    simp only [parseFrac]
    rw [hfparts.1, hfparts.2]
    rw [if_neg (by simp [fracChars_ne_nil])]
    rw [digitsToNat_natChars, fracChars_value (n % 100) (by omega)]
    have hval : ((n / 100 : ℕ) : ℚ) + ((n % 100 : ℕ) : ℚ) / 100 = (n : ℚ) / 100 := by
      have hn' : n = 100 * (n / 100) + n % 100 := by omega
      conv_rhs => rw [hn']
      push_cast
      ring
    rw [hval]
    rw [if_neg (show ¬((fracChars (n % 100)).isEmpty = true) by
      simp [fracChars_ne_nil])]

/-- A leading minus negates the parsed value when a digit follows. -/
lemma parseNum_neg_of_digit_head (d : Char) (t : List Char) (hd : d.isDigit = true) :
    parseNum ('-' :: d :: t) =
      match parseNum (d :: t) with
      | some (v, r) => some (-v, r)
      | none => none := by
  simp only [parseNum]
  rw [show parseSign ('-' :: d :: t) = (true, d :: t) from rfl,
    parseSign_cons_other d t (isDigit_ne_minus d hd)]
  simp only []
  rcases hpf : parseFrac (digitsToNat ((d :: t).takeWhile Char.isDigit) : ℚ)
      ((d :: t).dropWhile Char.isDigit) with ⟨val, rest⟩
  split <;> simp

/-- Parsing back `qChars q` for a two-decimal `q` when a non-numeric
delimiter follows. -/
lemma parseNum_qChars (q : ℚ) (hq : round2 q = q) (hsmall : |q| < 10 ^ 21)
    (c : Char) (rest : List Char)
    (hcd : c.isDigit = false) (hcdot : c ≠ '.') :
    parseNum (qChars q ++ c :: rest) = some (q, c :: rest) := by
  have hqval : ((round (q * 100) : ℤ) : ℚ) / 100 = q := by
    conv_rhs => rw [← hq]
    rw [round2, if_neg (not_le.mpr hsmall)]
  obtain ⟨d, ds, hnat⟩ : ∃ d ds, natChars ((round (q * 100)).natAbs / 100) = d :: ds := by
    rcases hn : natChars ((round (q * 100)).natAbs / 100) with _ | ⟨d, ds⟩
    · exact absurd hn (natChars_ne_nil _)
    · exact ⟨d, ds, rfl⟩
  have hd : d.isDigit = true := by
    apply natChars_all_digit ((round (q * 100)).natAbs / 100)
    rw [hnat]
    exact List.mem_cons_self d ds
  have hun := parseNum_unsigned (round (q * 100)).natAbs c rest hcd hcdot
  simp only [qChars]
  rw [if_neg (not_le.mpr hsmall)]
  by_cases hk : round (q * 100) < 0
  · rw [if_pos hk]
    have hshape : (natChars ((round (q * 100)).natAbs / 100) ++
        (if (round (q * 100)).natAbs % 100 = 0 then []
          else '.' :: fracChars ((round (q * 100)).natAbs % 100))) ++ c :: rest =
        d :: (ds ++ (if (round (q * 100)).natAbs % 100 = 0 then []
          else '.' :: fracChars ((round (q * 100)).natAbs % 100)) ++ c :: rest) := by
      rw [hnat]
      simp
    have hflat : (['-'] ++ natChars ((round (q * 100)).natAbs / 100) ++
        (if (round (q * 100)).natAbs % 100 = 0 then []
          else '.' :: fracChars ((round (q * 100)).natAbs % 100))) ++ c :: rest =
        '-' :: ((natChars ((round (q * 100)).natAbs / 100) ++
        (if (round (q * 100)).natAbs % 100 = 0 then []
          else '.' :: fracChars ((round (q * 100)).natAbs % 100))) ++ c :: rest) := by
      simp
    rw [hflat, hshape, parseNum_neg_of_digit_head d _ hd, ← hshape, hun]
    simp only []
    have hcastn : (((round (q * 100)).natAbs : ℕ) : ℚ) = -((round (q * 100) : ℤ) : ℚ) := by
      rw [Int.cast_natAbs]
      exact_mod_cast abs_of_neg hk
    rw [hcastn]
    rw [show -(-((round (q * 100) : ℤ) : ℚ) / 100) = ((round (q * 100) : ℤ) : ℚ) / 100 by ring]
    rw [hqval]
  · rw [if_neg hk, List.nil_append, hun]
    have hcastn : (((round (q * 100)).natAbs : ℕ) : ℚ) = ((round (q * 100) : ℤ) : ℚ) := by
      rw [Int.cast_natAbs]
      exact_mod_cast abs_of_nonneg (not_lt.mp hk)
    rw [hcastn, hqval]

/-! ## Round-trip layer: parsing back serialized text -/

lemma round2_idem (q : ℚ) : round2 (round2 q) = round2 q := by
  by_cases h : (10 : ℚ) ^ 21 ≤ |q|
  · have hq : round2 q = q := by rw [round2, if_pos h]
    rw [hq, hq]
  · have hq : round2 q = ((round (q * 100) : ℤ) : ℚ) / 100 := by
      rw [round2, if_neg h]
    rw [hq]
    by_cases h2 : (10 : ℚ) ^ 21 ≤ |((round (q * 100) : ℤ) : ℚ) / 100|
    · rw [round2, if_pos h2]
    · rw [round2, if_neg h2, div_mul_cancel₀ _ (by norm_num : (100 : ℚ) ≠ 0),
        round_intCast]

lemma skipWs_cons_of_not_ws (c : Char) (t : List Char) (h : jsWs c = false) :
    skipWs (c :: t) = c :: t :=
  List.dropWhile_cons_of_neg (by simp [h])

lemma sciChars_sub_mem (n : ℕ) :
    ∀ x ∈ ((natChars n).reverse.dropWhile (fun c => c == '0')).reverse,
      x ∈ natChars n := by
  intro x hx
  rw [List.mem_reverse] at hx
  have hx2 := ((List.dropWhile_suffix (fun c : Char => c == '0')).sublist).subset hx
  rwa [List.mem_reverse] at hx2

lemma sciChars_not_ws (n : ℕ) : ∀ c ∈ sciChars n, jsWs c = false := by
  intro c hc
  simp only [sciChars] at hc
  rcases hsig : ((natChars n).reverse.dropWhile (fun c => c == '0')).reverse
    with _ | ⟨d, rest⟩
  · rw [hsig] at hc
    simp only [] at hc
    rw [List.mem_singleton] at hc
    subst hc
    decide
  · rw [hsig] at hc
    simp only [] at hc
    rw [List.mem_cons, List.mem_append] at hc
    rcases hc with hc | hc | hc
    · subst hc
      exact isDigit_not_ws c (natChars_all_digit n c
        (sciChars_sub_mem n c (by rw [hsig]; exact List.mem_cons_self _ _)))
    · by_cases he : rest.isEmpty
      · rw [if_pos he] at hc
        simp at hc
      · rw [if_neg he, List.mem_cons] at hc
        rcases hc with hc | hc
        · subst hc; decide
        · exact isDigit_not_ws c (natChars_all_digit n c
            (sciChars_sub_mem n c (by rw [hsig]; exact List.mem_cons_of_mem d hc)))
    · rw [List.mem_cons] at hc
      rcases hc with hc | hc
      · subst hc; decide
      · rw [List.mem_cons] at hc
        rcases hc with hc | hc
        · subst hc; decide
        · exact isDigit_not_ws c (natChars_all_digit _ c hc)

lemma sciChars_ne_nil (n : ℕ) : sciChars n ≠ [] := by
  simp only [sciChars]
  rcases hsig : ((natChars n).reverse.dropWhile (fun c => c == '0')).reverse
    with _ | ⟨d, rest⟩
  · simp
  · simp

lemma qChars_not_ws (q : ℚ) : ∀ c ∈ qChars q, jsWs c = false := by
  intro c hc
  simp only [qChars] at hc
  by_cases hbig : (10 : ℚ) ^ 21 ≤ |q|
  · rw [if_pos hbig, List.mem_append] at hc
    rcases hc with hc | hc
    · by_cases hq0 : q < 0
      · rw [if_pos hq0, List.mem_singleton] at hc
        subst hc
        decide
      · rw [if_neg hq0] at hc
        simp at hc
    · exact sciChars_not_ws _ c hc
  · rw [if_neg hbig, List.mem_append, List.mem_append] at hc
    rcases hc with (hc | hc) | hc
    · by_cases hk : round (q * 100) < 0
      · rw [if_pos hk] at hc
        simp only [List.mem_singleton] at hc
        subst hc
        decide
      · rw [if_neg hk] at hc
        simp at hc
    · exact isDigit_not_ws c (natChars_all_digit _ c hc)
    · by_cases hm : (round (q * 100)).natAbs % 100 = 0
      · rw [if_pos hm] at hc
        simp at hc
      · rw [if_neg hm, List.mem_cons] at hc
        rcases hc with hc | hc
        · subst hc; decide
        · exact isDigit_not_ws c (fracChars_all_digit _ c hc)

lemma qChars_ne_nil (q : ℚ) : qChars q ≠ [] := by
  obtain ⟨d, ds, hnat⟩ : ∃ d ds, natChars ((round (q * 100)).natAbs / 100) = d :: ds := by
    rcases hn : natChars ((round (q * 100)).natAbs / 100) with _ | ⟨d, ds⟩
    · exact absurd hn (natChars_ne_nil _)
    · exact ⟨d, ds, rfl⟩
  simp only [qChars]
  by_cases hbig : (10 : ℚ) ^ 21 ≤ |q|
  · rw [if_pos hbig]
    intro h0
    rcases List.append_eq_nil.mp h0 with ⟨h1, h2⟩
    exact sciChars_ne_nil _ h2
  · rw [if_neg hbig]
    simp [hnat]

lemma qChars_cons_not_ws (q : ℚ) : ∃ d t, qChars q = d :: t ∧ jsWs d = false := by
  rcases hq : qChars q with _ | ⟨d, t⟩
  · exact absurd hq (qChars_ne_nil q)
  · exact ⟨d, t, rfl,
      qChars_not_ws q d (by rw [hq]; exact List.mem_cons_self _ _)⟩

lemma skipWs_qChars_append (q : ℚ) (r : List Char) :
    skipWs (qChars q ++ r) = qChars q ++ r := by
  obtain ⟨d, t, hq, hd⟩ := qChars_cons_not_ws q
  rw [hq, List.cons_append, skipWs_cons_of_not_ws _ _ hd]

/-- The coordinate regex matches one serialized point exactly, leaving the
remaining text untouched. -/
lemma matchAt_pointChars (cm : Bool) (p : Point) (tail : List Char)
    (hx21 : |round2 p.1| < 10 ^ 21) (hy21 : |round2 p.2| < 10 ^ 21) :
    matchAt (pointChars cm p ++ tail) = some ((round2 p.1, round2 p.2, cm), tail) := by
  have hx := round2_idem p.1
  have hy := round2_idem p.2
  cases cm
  · have hshape : pointChars false p ++ tail =
        '[' :: (qChars (round2 p.1) ++ ',' :: (qChars (round2 p.2) ++ ']' :: tail)) := by
      simp [pointChars]
    rw [hshape]
    simp only [matchAt]
    rw [skipWs_qChars_append, parseNum_qChars _ hx hx21 ',' _ (by decide) (by decide)]
    simp only []
    rw [skipWs_cons_of_not_ws ',' _ (by decide)]
    rw [show expectChar ',' (',' :: (qChars (round2 p.2) ++ ']' :: tail)) =
      some (qChars (round2 p.2) ++ ']' :: tail) from rfl]
    simp only []
    rw [skipWs_qChars_append, parseNum_qChars _ hy hy21 ']' _ (by decide) (by decide)]
    rfl
  · have hshape : pointChars true p ++ tail =
        '[' :: (qChars (round2 p.1) ++ ',' ::
          (qChars (round2 p.2) ++ ',' :: '-' :: '1' :: ']' :: tail)) := by
      simp [pointChars]
    rw [hshape]
    simp only [matchAt]
    rw [skipWs_qChars_append, parseNum_qChars _ hx hx21 ',' _ (by decide) (by decide)]
    simp only []
    rw [skipWs_cons_of_not_ws ',' _ (by decide)]
    rw [show expectChar ',' (',' :: (qChars (round2 p.2) ++ ',' :: '-' :: '1' :: ']' :: tail)) =
      some (qChars (round2 p.2) ++ ',' :: '-' :: '1' :: ']' :: tail) from rfl]
    simp only []
    rw [skipWs_qChars_append, parseNum_qChars _ hy hy21 ',' _ (by decide) (by decide)]
    rfl

lemma parseNum_cons_none (c : Char) (t : List Char) (h1 : c ≠ '-')
    (h2 : c.isDigit = false) : parseNum (c :: t) = none := by
  simp only [parseNum, parseSign_cons_other c t h1]
  rw [List.takeWhile_cons_of_neg (by simp [h2])]
  rfl

lemma matchAt_cons_none (c : Char) (cs : List Char) (hc : c ≠ '[') :
    matchAt (c :: cs) = none := by
  rcases c with ⟨v⟩
  simp only [matchAt]
  split
  · rename_i heq
    exact absurd (by injection heq) hc
  · rfl

lemma matchAt_lbrack_none (cs : List Char) (h : parseNum (skipWs cs) = none) :
    matchAt ('[' :: cs) = none := by
  simp only [matchAt, h]

lemma scanTokens_match_head (l l2 : List Char) (c : Char) (cs : List Char)
    (hshape : l = c :: cs) (t : ℚ × ℚ × Bool)
    (h : matchAt l = some (t, l2)) : scanTokens l = t :: scanTokens l2 := by
  subst hshape
  exact scanTokens_cons_some c cs t l2 h

/-- The token stream the scanner recovers from one serialized shape's point
lines: one token per point, the closure marker on the last. -/
def pointTokens (isClosed : Bool) : List Point → List (ℚ × ℚ × Bool)
  | [] => []
  | [p] => [(round2 p.1, round2 p.2, isClosed)]
  | p :: ps => (round2 p.1, round2 p.2, false) :: pointTokens isClosed ps

/-- What one serializer-deserializer pass does to a point: two-decimal
rounding. -/
def normPoint (p : Point) : Point := (round2 p.1, round2 p.2)

def normShape (sh : Shape) : Shape := ⟨sh.points.map normPoint, sh.isClosed⟩

/-- What one serializer-deserializer pass does to a document: drop pointless
shapes and round every coordinate to two decimals. -/
def normShapes (shapes : List Shape) : List Shape :=
  (shapes.filter fun sh => !sh.points.isEmpty).map normShape

lemma pointsChars_shape (b : Bool) (pts : List Point) (h : pts ≠ []) :
    ∃ x xs, pointsChars b pts = ('[' :: x) :: xs := by
  rcases pts with _ | ⟨p, rest⟩
  · exact absurd rfl h
  · rcases rest with _ | ⟨q, rest'⟩
    · exact ⟨_, _, rfl⟩
    · exact ⟨_, _, rfl⟩

lemma joinSep_cons_cons (sep : List Char) (c : Char) (x : List Char)
    (rest : List (List Char)) : ∃ t, joinSep sep ((c :: x) :: rest) = c :: t := by
  rcases rest with _ | ⟨y, rest⟩
  · exact ⟨x, rfl⟩
  · exact ⟨x ++ sep ++ joinSep sep (y :: rest), rfl⟩

/-- Scanning the joined point lines of one shape (followed by the closing
`\n]`) recovers exactly its token stream. -/
lemma scanTokens_pointLines (b : Bool) :
    ∀ (pts : List Point), pts ≠ [] →
      (∀ p ∈ pts, |round2 p.1| < 10 ^ 21 ∧ |round2 p.2| < 10 ^ 21) →
      scanTokens (joinSep [',', '\n'] (pointsChars b pts) ++ ['\n', ']']) =
        pointTokens b pts := by
  intro pts
  induction pts with
  | nil => intro h; exact absurd rfl h
  | cons p rest ih =>
    intro _ hall
    rcases rest with _ | ⟨q, rest'⟩
    · rw [show pointsChars b [p] = [pointChars b p] from rfl]
      rw [show joinSep [',', '\n'] [pointChars b p] = pointChars b p from rfl]
      rw [scanTokens_match_head (pointChars b p ++ ['\n', ']']) ['\n', ']'] '[' _ rfl _
        (matchAt_pointChars b p ['\n', ']']
          (hall p (List.mem_cons_self _ _)).1 (hall p (List.mem_cons_self _ _)).2)]
      rw [show scanTokens ['\n', ']'] = [] from by decide]
      rfl
    · rw [show pointsChars b (p :: q :: rest') =
        pointChars false p :: pointsChars b (q :: rest') from rfl]
      obtain ⟨x, xs, hpc⟩ := pointsChars_shape b (q :: rest') (by simp)
      rw [hpc]
      rw [show joinSep [',', '\n'] (pointChars false p :: ('[' :: x) :: xs) =
        pointChars false p ++ [',', '\n'] ++ joinSep [',', '\n'] (('[' :: x) :: xs)
        from rfl]
      have hassoc : (pointChars false p ++ [',', '\n'] ++
          joinSep [',', '\n'] (('[' :: x) :: xs)) ++ ['\n', ']'] =
          pointChars false p ++ (',' :: '\n' ::
            (joinSep [',', '\n'] (('[' :: x) :: xs) ++ ['\n', ']'])) := by
        simp
      rw [hassoc]
      rw [scanTokens_match_head (pointChars false p ++ (',' :: '\n' ::
          (joinSep [',', '\n'] (('[' :: x) :: xs) ++ ['\n', ']']))) _ '[' _ rfl _
        (matchAt_pointChars false p (',' :: '\n' ::
          (joinSep [',', '\n'] (('[' :: x) :: xs) ++ ['\n', ']']))
          (hall p (List.mem_cons_self _ _)).1 (hall p (List.mem_cons_self _ _)).2)]
      rw [scanTokens_cons_none ',' _ (matchAt_cons_none ',' _ (by decide))]
      rw [scanTokens_cons_none '\n' _ (matchAt_cons_none '\n' _ (by decide))]
      rw [← hpc, ih (by simp) (fun r hr => hall r (List.mem_cons_of_mem p hr))]
      rfl

/-- Assembling the token stream of one shape yields exactly its rounded
shape, whatever points were already pending. -/
lemma blockShapesGo_pointTokens (b : Bool) :
    ∀ (pts : List Point), pts ≠ [] → ∀ (cur : List Point),
      blockShapesGo (pointTokens b pts) cur =
        [⟨cur ++ pts.map normPoint, b⟩] := by
  intro pts
  induction pts with
  | nil => intro h; exact absurd rfl h
  | cons p rest ih =>
    intro _ cur
    rcases rest with _ | ⟨q, rest'⟩
    · cases b
      · rw [show pointTokens false [p] = [(round2 p.1, round2 p.2, false)] from rfl]
        simp [blockShapesGo, normPoint]
      · rw [show pointTokens true [p] = [(round2 p.1, round2 p.2, true)] from rfl]
        simp [blockShapesGo, normPoint]
    · rw [show pointTokens b (p :: q :: rest') =
        (round2 p.1, round2 p.2, false) :: pointTokens b (q :: rest') from rfl]
      simp only [blockShapesGo]
      simp only [Bool.false_eq_true, if_false]
      rw [ih (by simp) (cur ++ [(round2 p.1, round2 p.2)])]
      simp [normPoint]

/-- No blank-line separator can start inside such a text: every newline is
immediately followed by a non-whitespace character (and the text does not end
in a newline). -/
def nlOk : List Char → Bool
  | [] => true
  | c :: rest =>
    if c = '\n' then
      match rest with
      | [] => false
      | d :: _ => !jsWs d && nlOk rest
    else nlOk rest

lemma nlOk_cons_not_nl (c : Char) (rest : List Char) (h : c ≠ '\n') :
    nlOk (c :: rest) = nlOk rest := by
  simp [nlOk, h]

lemma nlOk_cons_nl (d : Char) (rest : List Char) (hd : jsWs d = false) :
    nlOk ('\n' :: d :: rest) = nlOk (d :: rest) := by
  simp [nlOk, hd]

lemma nlOk_tail (c : Char) (rest : List Char) (h : nlOk (c :: rest) = true) :
    nlOk rest = true := by
  by_cases hc : c = '\n'
  · subst hc
    rcases rest with _ | ⟨d, rest'⟩
    · rfl
    · rw [show nlOk ('\n' :: d :: rest') =
        (!jsWs d && nlOk (d :: rest')) from by simp [nlOk]] at h
      exact (Bool.and_eq_true_iff.mp h).2
  · rwa [nlOk_cons_not_nl c rest hc] at h

lemma nlOk_of_not_ws (l : List Char) (h : ∀ c ∈ l, jsWs c = false) :
    nlOk l = true := by
  induction l with
  | nil => rfl
  | cons c t ih =>
    have hc : c ≠ '\n' := by
      intro hc
      subst hc
      exact absurd (h '\n' (List.mem_cons_self _ _)) (by decide)
    rw [nlOk_cons_not_nl c t hc]
    exact ih fun d hd => h d (List.mem_cons_of_mem c hd)

lemma nlOk_append (a b : List Char) (ha : nlOk a = true) (hb : nlOk b = true) :
    nlOk (a ++ b) = true := by
  induction a with
  | nil => simpa using hb
  | cons c a' ih =>
    by_cases hc : c = '\n'
    · subst hc
      rcases a' with _ | ⟨d, a''⟩
      · exact absurd ha (by simp [nlOk])
      · rw [show nlOk ('\n' :: d :: a'') = (!jsWs d && nlOk (d :: a''))
          from by simp [nlOk]] at ha
        obtain ⟨hd, ha'⟩ := Bool.and_eq_true_iff.mp ha
        rw [List.cons_append, List.cons_append,
          nlOk_cons_nl d (a'' ++ b) (by simpa using hd)]
        rw [← List.cons_append]
        exact ih ha'
    · rw [List.cons_append, nlOk_cons_not_nl c (a' ++ b) hc]
      exact ih (by rwa [nlOk_cons_not_nl c a' hc] at ha)

lemma nlOk_true_of_tail (c : Char) (rest : List Char) (hc : c ≠ '\n')
    (h : nlOk rest = true) : nlOk (c :: rest) = true := by
  rwa [nlOk_cons_not_nl c rest hc]

/-- Appending one blank-line separator and more text after a separator-free
piece: `splitBlocks` cuts exactly there. -/
lemma splitBlocks_append_sep :
    ∀ (b rest : List Char), nlOk b = true → rest.takeWhile jsWs = [] →
      splitBlocks (b ++ '\n' :: '\n' :: rest) = b :: splitBlocks rest := by
  intro b
  induction b with
  | nil =>
    intro rest _ hrest
    rw [List.nil_append, splitBlocks]
    have hw : ('\n' :: rest).takeWhile jsWs = ['\n'] := by
      rw [List.takeWhile_cons_of_pos (by decide), hrest]
    rw [if_pos ⟨rfl, by rw [hw]; exact List.mem_cons_self _ _⟩]
    have hsep : sepExtra ('\n' :: rest) = 1 := by
      simp only [sepExtra, hw]
      decide
    rw [hsep]
    rfl
  | cons c b' ih =>
    intro rest hok hrest
    rw [List.cons_append, splitBlocks]
    by_cases hc : c = '\n'
    · subst hc
      rcases b' with _ | ⟨d, b''⟩
      · exact absurd hok (by simp [nlOk])
      · rw [show nlOk ('\n' :: d :: b'') = (!jsWs d && nlOk (d :: b''))
          from by simp [nlOk]] at hok
        obtain ⟨hd, hok'⟩ := Bool.and_eq_true_iff.mp hok
        have hd' : jsWs d = false := by simpa using hd
        rw [if_neg (by
          intro hcond
          have := hcond.2
          rw [List.cons_append, List.takeWhile_cons_of_neg (by simp [hd'])] at this
          simp at this)]
        rw [ih rest hok' hrest]
    · rw [if_neg (by intro hcond; exact hc hcond.1)]
      rw [ih rest (nlOk_tail c b' hok) hrest]

/-- A separator-free piece is returned whole. -/
lemma splitBlocks_noSep :
    ∀ (b : List Char), nlOk b = true → splitBlocks b = [b] := by
  intro b
  induction b with
  | nil => intro _; simp [splitBlocks]
  | cons c b' ih =>
    intro hok
    rw [splitBlocks]
    by_cases hc : c = '\n'
    · subst hc
      rcases b' with _ | ⟨d, b''⟩
      · exact absurd hok (by simp [nlOk])
      · rw [show nlOk ('\n' :: d :: b'') = (!jsWs d && nlOk (d :: b''))
          from by simp [nlOk]] at hok
        obtain ⟨hd, hok'⟩ := Bool.and_eq_true_iff.mp hok
        have hd' : jsWs d = false := by simpa using hd
        rw [if_neg (by
          intro hcond
          have := hcond.2
          rw [List.takeWhile_cons_of_neg (by simp [hd'])] at this
          simp at this)]
        rw [ih hok']
    · rw [if_neg (by intro hcond; exact hc hcond.1)]
      rw [ih (nlOk_tail c b' hok)]

/-- `splitBlocks` inverts `join('\n\n')` on separator-free, non-blank
pieces. -/
lemma splitBlocks_joinSep :
    ∀ (blocks : List (List Char)),
      (∀ b ∈ blocks, nlOk b = true ∧ ∃ d t, b = d :: t ∧ jsWs d = false) →
      blocks ≠ [] →
      splitBlocks (joinSep ['\n', '\n'] blocks) = blocks := by
  intro blocks
  induction blocks with
  | nil => intro _ h; exact absurd rfl h
  | cons b0 bs ih =>
    intro hall _
    rcases bs with _ | ⟨b1, bs'⟩
    · rw [show joinSep ['\n', '\n'] [b0] = b0 from rfl]
      exact splitBlocks_noSep b0 (hall b0 (List.mem_cons_self _ _)).1
    · rw [show joinSep ['\n', '\n'] (b0 :: b1 :: bs') =
        b0 ++ '\n' :: '\n' :: joinSep ['\n', '\n'] (b1 :: bs') from by
          rw [show joinSep ['\n', '\n'] (b0 :: b1 :: bs') =
            b0 ++ ['\n', '\n'] ++ joinSep ['\n', '\n'] (b1 :: bs') from rfl]
          simp]
      obtain ⟨d, t, hb1, hd⟩ :=
        (hall b1 (List.mem_cons_of_mem b0 (List.mem_cons_self _ _))).2
      have hrest : (joinSep ['\n', '\n'] (b1 :: bs')).takeWhile jsWs = [] := by
        rw [hb1]
        obtain ⟨t2, hjs⟩ := joinSep_cons_cons ['\n', '\n'] d t bs'
        rw [hjs, List.takeWhile_cons_of_neg (by simp [hd])]
      rw [splitBlocks_append_sep b0 _ (hall b0 (List.mem_cons_self _ _)).1 hrest]
      rw [ih (fun b hb => hall b (List.mem_cons_of_mem b0 hb)) (by simp)]

lemma pointChars_not_ws (cm : Bool) (p : Point) :
    ∀ c ∈ pointChars cm p, jsWs c = false := by
  intro c hc
  have hq1 := qChars_not_ws (round2 p.1)
  have hq2 := qChars_not_ws (round2 p.2)
  simp only [pointChars, List.mem_cons, List.mem_append] at hc
  rcases hc with hc | ((hc | hc | hc) | hc) | hc
  · subst hc; decide
  · exact hq1 c hc
  · subst hc; decide
  · exact hq2 c hc
  · cases cm
    · simp at hc
    · simp at hc
      rcases hc with hc | hc | hc <;> (subst hc; decide)
  · rcases hc with hc | hc
    · subst hc; decide
    · simp at hc

lemma pointsChars_mem (b : Bool) :
    ∀ (pts : List Point) (l : List Char), l ∈ pointsChars b pts →
      ∃ cm p, l = pointChars cm p := by
  intro pts
  induction pts with
  | nil =>
    intro l hl
    rw [show pointsChars b [] = [] from rfl] at hl
    simp at hl
  | cons p rest ih =>
    intro l hl
    rcases rest with _ | ⟨q, rest'⟩
    · rw [show pointsChars b [p] = [pointChars b p] from rfl,
        List.mem_singleton] at hl
      exact ⟨b, p, hl⟩
    · rw [show pointsChars b (p :: q :: rest') =
        pointChars false p :: pointsChars b (q :: rest') from rfl,
        List.mem_cons] at hl
      rcases hl with hl | hl
      · exact ⟨false, p, hl⟩
      · exact ih l hl

lemma joinSep_mem (sep : List Char) :
    ∀ (bs : List (List Char)) (c : Char), c ∈ joinSep sep bs →
      c ∈ sep ∨ ∃ b ∈ bs, c ∈ b := by
  intro bs
  induction bs with
  | nil =>
    intro c hc
    rw [show joinSep sep [] = [] from rfl] at hc
    simp at hc
  | cons b0 bs' ih =>
    intro c hc
    rcases bs' with _ | ⟨b1, bs''⟩
    · rw [show joinSep sep [b0] = b0 from rfl] at hc
      exact Or.inr ⟨b0, by simp, hc⟩
    · rw [show joinSep sep (b0 :: b1 :: bs'') =
        b0 ++ sep ++ joinSep sep (b1 :: bs'') from rfl,
        List.mem_append, List.mem_append] at hc
      rcases hc with (hc | hc) | hc
      · exact Or.inr ⟨b0, by simp, hc⟩
      · exact Or.inl hc
      · rcases ih c hc with hs | ⟨b, hb, hcb⟩
        · exact Or.inl hs
        · exact Or.inr ⟨b, List.mem_cons_of_mem b0 hb, hcb⟩

lemma shapeChars_eq (sh : Shape) (h : sh.points ≠ []) :
    shapeChars sh = '[' :: '\n' ::
      (joinSep [',', '\n'] (pointsChars sh.isClosed sh.points) ++ ['\n', ']']) := by
  rw [shapeChars, if_neg (by simp [h])]

lemma shapeChars_isEmpty (sh : Shape) :
    (shapeChars sh).isEmpty = sh.points.isEmpty := by
  cases he : sh.points.isEmpty
  · rw [shapeChars, if_neg (by simp [he])]
    rfl
  · rw [shapeChars, if_pos he]
    rfl

lemma shapeChars_head (sh : Shape) (h : sh.points ≠ []) :
    (shapeChars sh).head? = some '[' := by
  rw [shapeChars_eq sh h]
  rfl

lemma shapeChars_getLast (sh : Shape) (h : sh.points ≠ []) :
    (shapeChars sh).getLast? = some ']' := by
  rw [shapeChars_eq sh h]
  rw [show '[' :: '\n' ::
      (joinSep [',', '\n'] (pointsChars sh.isClosed sh.points) ++ ['\n', ']']) =
    ('[' :: '\n' ::
      (joinSep [',', '\n'] (pointsChars sh.isClosed sh.points) ++ ['\n'])) ++ [']']
    from by simp]
  rw [List.getLast?_concat]

lemma shapeChars_mem_class (sh : Shape) :
    ∀ c ∈ shapeChars sh, c = '\n' ∨ jsWs c = false := by
  intro c hc
  by_cases h : sh.points = []
  · rw [shapeChars, if_pos (by simp [h])] at hc
    simp at hc
  · rw [shapeChars_eq sh h, List.mem_cons, List.mem_cons, List.mem_append] at hc
    rcases hc with hc | hc | hc | hc
    · right; subst hc; decide
    · left; exact hc
    · rcases joinSep_mem _ _ c hc with hs | ⟨b, hb, hcb⟩
      · rcases List.mem_cons.mp hs with hs | hs
        · right; subst hs; decide
        · left; simpa using hs
      · obtain ⟨cm, p, hbp⟩ := pointsChars_mem _ _ b hb
        right
        exact pointChars_not_ws cm p c (hbp ▸ hcb)
    · rcases List.mem_cons.mp hc with hc | hc
      · left; exact hc
      · right
        rw [List.mem_singleton] at hc
        subst hc; decide

lemma normalizeText_cons_ne (c : Char) (rest : List Char) (hc : c ≠ '\r') :
    normalizeText (c :: rest) = c :: normalizeText rest := by
  rw [normalizeText.eq_def]
  split
  · rename_i heq
    exact absurd heq (by simp)
  · rename_i rest2 heq
    injection heq with h1 h2
    exact absurd h1 hc
  · rename_i c' rest' heq
    injection heq with h1 h2
    rw [h1, h2]

lemma normalizeText_eq_self (l : List Char) (h : ∀ c ∈ l, c ≠ '\r') :
    normalizeText l = l := by
  induction l with
  | nil => rfl
  | cons c rest ih =>
    rw [normalizeText_cons_ne c rest (h c (List.mem_cons_self _ _))]
    rw [ih fun d hd => h d (List.mem_cons_of_mem c hd)]

lemma trimChars_eq_self (l : List Char)
    (h1 : ∀ c, l.head? = some c → jsWs c = false)
    (h2 : ∀ c, l.getLast? = some c → jsWs c = false) :
    trimChars l = l := by
  rcases l with _ | ⟨c, t⟩
  · rfl
  · have hc : jsWs c = false := h1 c rfl
    simp only [trimChars]
    rw [List.dropWhile_cons_of_neg (by simp [hc])]
    rcases hrev : (c :: t).reverse with _ | ⟨d, r⟩
    · exact absurd hrev (by simp)
    · have hd : jsWs d = false := by
        apply h2
        rw [← List.head?_reverse, hrev]
        rfl
      rw [List.dropWhile_cons_of_neg (by simp [hd]), ← hrev, List.reverse_reverse]

lemma joinSep_head_lbrack (sep : List Char) (b0 : List Char)
    (bs : List (List Char)) (h : b0.head? = some '[') :
    (joinSep sep (b0 :: bs)).head? = some '[' := by
  rcases b0 with _ | ⟨c, t⟩
  · simp at h
  · have hc : c = '[' := by simpa using h
    subst hc
    obtain ⟨t2, hj⟩ := joinSep_cons_cons sep '[' t bs
    rw [hj]
    rfl

lemma joinSep_getLast_rbrack (sep : List Char) :
    ∀ (bs : List (List Char)) (b0 : List Char),
      (∀ b ∈ b0 :: bs, b.getLast? = some ']') →
      (joinSep sep (b0 :: bs)).getLast? = some ']' := by
  intro bs
  induction bs with
  | nil =>
    intro b0 h
    rw [show joinSep sep [b0] = b0 from rfl]
    exact h b0 (List.mem_cons_self _ _)
  | cons b1 bs' ih =>
    intro b0 h
    rw [show joinSep sep (b0 :: b1 :: bs') =
      b0 ++ sep ++ joinSep sep (b1 :: bs') from rfl]
    have hj := ih b1 (fun b hb => h b (List.mem_cons_of_mem b0 hb))
    rw [List.getLast?_append_of_ne_nil]
    · exact hj
    · intro h0
      rw [h0] at hj
      simp at hj

lemma nlOk_pointLines (b : Bool) :
    ∀ (pts : List Point), pts ≠ [] →
      nlOk (joinSep [',', '\n'] (pointsChars b pts) ++ ['\n', ']']) = true := by
  intro pts
  induction pts with
  | nil => intro h; exact absurd rfl h
  | cons p rest ih =>
    intro _
    rcases rest with _ | ⟨q, rest'⟩
    · rw [show pointsChars b [p] = [pointChars b p] from rfl,
        show joinSep [',', '\n'] [pointChars b p] = pointChars b p from rfl]
      exact nlOk_append _ _ (nlOk_of_not_ws _ (pointChars_not_ws b p)) (by decide)
    · rw [show pointsChars b (p :: q :: rest') =
        pointChars false p :: pointsChars b (q :: rest') from rfl]
      obtain ⟨x, xs, hpc⟩ := pointsChars_shape b (q :: rest') (by simp)
      rw [hpc]
      rw [show joinSep [',', '\n'] (pointChars false p :: ('[' :: x) :: xs) =
        pointChars false p ++ [',', '\n'] ++ joinSep [',', '\n'] (('[' :: x) :: xs)
        from rfl]
      have hassoc : (pointChars false p ++ [',', '\n'] ++
          joinSep [',', '\n'] (('[' :: x) :: xs)) ++ ['\n', ']'] =
          pointChars false p ++ (',' :: '\n' ::
            (joinSep [',', '\n'] (('[' :: x) :: xs) ++ ['\n', ']'])) := by
        simp
      rw [hassoc]
      apply nlOk_append _ _ (nlOk_of_not_ws _ (pointChars_not_ws false p))
      rw [nlOk_cons_not_nl ',' _ (by decide)]
      obtain ⟨t2, hj⟩ := joinSep_cons_cons [',', '\n'] '[' x xs
      rw [hj, show ('[' :: t2) ++ ['\n', ']'] = '[' :: (t2 ++ ['\n', ']']) from rfl,
        nlOk_cons_nl '[' _ (by decide), ← List.cons_append, ← hj, ← hpc]
      exact ih (by simp)

lemma shapeChars_nlOk (sh : Shape) (h : sh.points ≠ []) :
    nlOk (shapeChars sh) = true := by
  rw [shapeChars_eq sh h]
  rw [nlOk_cons_not_nl '[' _ (by decide)]
  obtain ⟨x, xs, hpc⟩ := pointsChars_shape sh.isClosed sh.points h
  rw [hpc]
  obtain ⟨t2, hj⟩ := joinSep_cons_cons [',', '\n'] '[' x xs
  rw [hj, show ('[' :: t2) ++ ['\n', ']'] = '[' :: (t2 ++ ['\n', ']']) from rfl,
    nlOk_cons_nl '[' _ (by decide), ← List.cons_append, ← hj, ← hpc]
  exact nlOk_pointLines sh.isClosed sh.points h

/-- Scanning one serialized shape recovers exactly its token stream. -/
lemma scanTokens_shapeChars (sh : Shape) (h : sh.points ≠ [])
    (hall : ∀ p ∈ sh.points, |round2 p.1| < 10 ^ 21 ∧ |round2 p.2| < 10 ^ 21) :
    scanTokens (shapeChars sh) = pointTokens sh.isClosed sh.points := by
  rw [shapeChars_eq sh h]
  obtain ⟨x, xs, hpc⟩ := pointsChars_shape sh.isClosed sh.points h
  obtain ⟨t2, hj⟩ := joinSep_cons_cons [',', '\n'] '[' x xs
  have hskip : skipWs ('\n' ::
      (joinSep [',', '\n'] (pointsChars sh.isClosed sh.points) ++ ['\n', ']'])) =
      joinSep [',', '\n'] (pointsChars sh.isClosed sh.points) ++ ['\n', ']'] := by
    rw [show skipWs ('\n' ::
        (joinSep [',', '\n'] (pointsChars sh.isClosed sh.points) ++ ['\n', ']'])) =
      skipWs (joinSep [',', '\n'] (pointsChars sh.isClosed sh.points) ++ ['\n', ']'])
      from List.dropWhile_cons_of_pos (by decide)]
    rw [hpc, hj, show ('[' :: t2) ++ ['\n', ']'] = '[' :: (t2 ++ ['\n', ']']) from rfl]
    exact skipWs_cons_of_not_ws '[' _ (by decide)
  rw [scanTokens_cons_none '[' _ (matchAt_lbrack_none _ (by
    rw [hskip, hpc, hj, show ('[' :: t2) ++ ['\n', ']'] = '[' :: (t2 ++ ['\n', ']'])
      from rfl]
    exact parseNum_cons_none '[' _ (by decide) (by decide)))]
  rw [scanTokens_cons_none '\n' _ (matchAt_cons_none '\n' _ (by decide))]
  exact scanTokens_pointLines sh.isClosed sh.points h hall

lemma pointChars_normPoint (cm : Bool) (p : Point) :
    pointChars cm (normPoint p) = pointChars cm p := by
  simp [pointChars, normPoint, round2_idem]

lemma pointsChars_normPoint (b : Bool) :
    ∀ pts : List Point, pointsChars b (pts.map normPoint) = pointsChars b pts := by
  intro pts
  induction pts with
  | nil => rfl
  | cons p rest ih =>
    rcases rest with _ | ⟨q, rest'⟩
    · rw [show ([p].map normPoint) = [normPoint p] from rfl,
        show pointsChars b [normPoint p] = [pointChars b (normPoint p)] from rfl,
        show pointsChars b [p] = [pointChars b p] from rfl, pointChars_normPoint]
    · rw [show ((p :: q :: rest').map normPoint) =
        normPoint p :: normPoint q :: (rest'.map normPoint) from rfl]
      rw [show pointsChars b (normPoint p :: normPoint q :: rest'.map normPoint) =
        pointChars false (normPoint p) ::
          pointsChars b (normPoint q :: rest'.map normPoint) from rfl]
      rw [show pointsChars b (p :: q :: rest') =
        pointChars false p :: pointsChars b (q :: rest') from rfl]
      rw [pointChars_normPoint]
      rw [show pointsChars b (normPoint q :: List.map normPoint rest') =
        pointsChars b (List.map normPoint (q :: rest')) from rfl, ih]

lemma shapeChars_normShape (sh : Shape) :
    shapeChars (normShape sh) = shapeChars sh := by
  rw [shapeChars, shapeChars]
  simp only [normShape]
  rw [show (sh.points.map normPoint).isEmpty = sh.points.isEmpty from by
    rcases sh.points with _ | _ <;> rfl]
  by_cases h : sh.points.isEmpty = true
  · rw [if_pos h, if_pos h]
  · rw [if_neg h, if_neg h, pointsChars_normPoint]

lemma shapesToChars_normShapes (shapes : List Shape) :
    shapesToChars (normShapes shapes) = shapesToChars shapes := by
  rw [shapesToChars, shapesToChars, normShapes]
  congr 1
  rw [List.map_map]
  have hcomp : shapeChars ∘ normShape = shapeChars := by
    funext sh
    exact shapeChars_normShape sh
  rw [hcomp]
  rw [List.filter_map, List.filter_map]
  have hpred : ((fun b : List Char => !b.isEmpty) ∘ shapeChars) =
      fun sh : Shape => !sh.points.isEmpty := by
    funext sh
    simp [Function.comp, shapeChars_isEmpty]
  rw [hpred]
  congr 1
  rw [List.filter_filter]
  congr 1
  funext a
  exact Bool.and_self _

/-- The full deserializer applied to serialized text: pointless shapes are
dropped, every coordinate is rounded to two decimals, nothing else changes. -/
lemma deserializeChars_shapesToChars (shapes : List Shape)
    (hsmall : ∀ sh ∈ shapes, ∀ p ∈ sh.points,
      |round2 p.1| < 10 ^ 21 ∧ |round2 p.2| < 10 ^ 21) :
    deserializeChars (shapesToChars shapes) = normShapes shapes := by
  have hLmem : ∀ sh ∈ shapes.filter (fun sh => !sh.points.isEmpty),
      sh.points ≠ [] := by
    intro sh hsh
    have h2 := (List.mem_filter.mp hsh).2
    simpa using h2
  have hblocks : (shapes.map shapeChars).filter (fun b => !b.isEmpty) =
      (shapes.filter fun sh => !sh.points.isEmpty).map shapeChars := by
    rw [List.filter_map]
    have hpred : ((fun b : List Char => !b.isEmpty) ∘ shapeChars) =
        fun sh : Shape => !sh.points.isEmpty := by
      funext sh
      simp [Function.comp, shapeChars_isEmpty]
    rw [hpred]
  have hassemble : ∀ (L : List Shape), (∀ sh ∈ L, sh.points ≠ []) →
      (∀ sh ∈ L, ∀ p ∈ sh.points,
        |round2 p.1| < 10 ^ 21 ∧ |round2 p.2| < 10 ^ 21) →
      (List.map shapeChars L).flatMap
        (fun b => if (trimChars b).isEmpty = true then []
          else blockShapes (scanTokens b)) = List.map normShape L := by
    intro L
    induction L with
    | nil => intro _ _; rfl
    | cons sh rest ih =>
      intro hall hallsm
      rw [show List.map shapeChars (sh :: rest) =
        shapeChars sh :: List.map shapeChars rest from rfl]
      rw [List.flatMap_cons]
      rw [ih (fun s hs => hall s (List.mem_cons_of_mem sh hs))
        (fun s hs => hallsm s (List.mem_cons_of_mem sh hs))]
      have hshp := hall sh (List.mem_cons_self _ _)
      have htrimb : trimChars (shapeChars sh) = shapeChars sh :=
        trimChars_eq_self _
          (fun c hcp => by
            rw [shapeChars_head sh hshp] at hcp
            injection hcp with h'
            subst h'
            decide)
          (fun c hcp => by
            rw [shapeChars_getLast sh hshp] at hcp
            injection hcp with h'
            subst h'
            decide)
      rw [htrimb]
      rw [if_neg (by rw [shapeChars_eq sh hshp]; simp)]
      rw [blockShapes,
        scanTokens_shapeChars sh hshp (hallsm sh (List.mem_cons_self _ _)),
        blockShapesGo_pointTokens sh.isClosed sh.points hshp []]
      rw [show (⟨[] ++ sh.points.map normPoint, sh.isClosed⟩ : Shape) =
        normShape sh from by simp [normShape]]
      rfl
  rcases hL : shapes.filter (fun sh => !sh.points.isEmpty) with _ | ⟨sh0, L'⟩
  · have hb : (shapes.map shapeChars).filter (fun b => !b.isEmpty) = [] := by
      rw [hblocks, hL]
      rfl
    have hcs : shapesToChars shapes = [] := by
      rw [shapesToChars, hb]
      rfl
    rw [hcs, normShapes, hL]
    rfl
  · have hcs : shapesToChars shapes =
        joinSep ['\n', '\n'] (List.map shapeChars (sh0 :: L')) := by
      rw [shapesToChars, hblocks, hL]
    have hmem : ∀ b ∈ List.map shapeChars (sh0 :: L'),
        ∃ sh, sh.points ≠ [] ∧ b = shapeChars sh := by
      intro b hb
      obtain ⟨sh, hsh, hbs⟩ := List.mem_map.mp hb
      refine ⟨sh, ?_, hbs.symm⟩
      apply hLmem
      rw [hL]
      exact hsh
    have hnorm : normalizeText (shapesToChars shapes) = shapesToChars shapes := by
      apply normalizeText_eq_self
      intro c hcmem
      rw [hcs] at hcmem
      rcases joinSep_mem _ _ c hcmem with hs | ⟨b, hb, hcb⟩
      · intro hcr
        subst hcr
        rcases List.mem_cons.mp hs with h' | h'
        · exact absurd h' (by decide)
        · rw [List.mem_singleton] at h'
          exact absurd h' (by decide)
      · obtain ⟨sh, hshp, hbs⟩ := hmem b hb
        subst hbs
        rcases shapeChars_mem_class sh c hcb with h' | h'
        · intro hcr
          rw [hcr] at h'
          exact absurd h' (by decide)
        · intro hcr
          rw [hcr] at h'
          exact absurd h' (by decide)
    have hhead : (shapesToChars shapes).head? = some '[' := by
      rw [hcs, show List.map shapeChars (sh0 :: L') =
        shapeChars sh0 :: List.map shapeChars L' from rfl]
      apply joinSep_head_lbrack
      apply shapeChars_head
      apply hLmem
      rw [hL]
      exact List.mem_cons_self _ _
    have hlast : (shapesToChars shapes).getLast? = some ']' := by
      rw [hcs, show List.map shapeChars (sh0 :: L') =
        shapeChars sh0 :: List.map shapeChars L' from rfl]
      apply joinSep_getLast_rbrack
      intro b hb
      obtain ⟨sh, hshp, hbs⟩ := hmem b hb
      subst hbs
      exact shapeChars_getLast sh hshp
    have htrim : trimChars (shapesToChars shapes) = shapesToChars shapes :=
      trimChars_eq_self _
        (fun c hcp => by
          rw [hhead] at hcp
          injection hcp with h'
          subst h'
          decide)
        (fun c hcp => by
          rw [hlast] at hcp
          injection hcp with h'
          subst h'
          decide)
    have hne : shapesToChars shapes ≠ [] := by
      intro h0
      rw [h0] at hhead
      exact absurd hhead (by simp)
    have hsplit : splitBlocks (shapesToChars shapes) =
        List.map shapeChars (sh0 :: L') := by
      rw [hcs]
      apply splitBlocks_joinSep
      · intro b hb
        obtain ⟨sh, hshp, hbs⟩ := hmem b hb
        subst hbs
        refine ⟨shapeChars_nlOk sh hshp, ?_⟩
        rw [shapeChars_eq sh hshp]
        exact ⟨'[', _, rfl, by decide⟩
      · simp
    rw [deserializeChars]
    rw [if_neg (by rw [htrim]; simp [hne])]
    rw [hnorm, htrim, hsplit]
    rw [hassemble (sh0 :: L') (fun sh hsh => hLmem sh (by rw [hL]; exact hsh))
      (fun sh hsh => hsmall sh (by
        have hsh' : sh ∈ shapes.filter (fun sh => !sh.points.isEmpty) := by
          rw [hL]; exact hsh
        exact (List.mem_filter.mp hsh').1))]
    rw [normShapes, hL]

/-! ## Concrete evaluation in the exponent-notation regime -/

lemma natChars_pow10 (e : ℕ) : natChars (10 ^ e) = '1' :: List.replicate e '0' := by
  induction e with
  | zero =>
    rw [natChars, if_pos (by norm_num)]
    rfl
  | succ e ih =>
    rw [natChars, if_neg (by
      have h10 : (10 : ℕ) ^ 1 ≤ 10 ^ (e + 1) :=
        Nat.pow_le_pow_right (by norm_num) (by omega)
      simp at h10 ⊢
      omega)]
    have hdiv : 10 ^ (e + 1) / 10 = 10 ^ e := by
      rw [pow_succ]
      exact Nat.mul_div_cancel _ (by norm_num)
    have hmod : 10 ^ (e + 1) % 10 = 0 := by
      rw [pow_succ]
      exact Nat.mul_mod_left _ _
    rw [hdiv, hmod, ih, show digitChar 0 = '0' from rfl]
    simp [List.replicate_succ']

lemma natChars_21 : natChars 21 = ['2', '1'] := by
  rw [natChars, if_neg (by norm_num), natChars, if_pos (by norm_num)]
  decide

lemma sciChars_eq_of_natChars (n : ℕ) (ds : List Char) (h : natChars n = ds) :
    sciChars n = (match (ds.reverse.dropWhile (fun c => c == '0')).reverse with
      | [] => ['0']
      | d :: rest => d :: ((if rest.isEmpty then [] else '.' :: rest) ++
          'e' :: '+' :: natChars (ds.length - 1))) := by
  subst h
  rfl

lemma sciChars_pow21 : sciChars (10 ^ 21) = ['1', 'e', '+', '2', '1'] := by
  rw [sciChars_eq_of_natChars (10 ^ 21) ('1' :: List.replicate 21 '0')
    (natChars_pow10 21)]
  rw [show (('1' :: List.replicate 21 '0' : List Char)).length - 1 = 21 from by decide,
    natChars_21]
  decide

lemma round2_pow21 : round2 ((10 : ℚ) ^ 21) = (10 : ℚ) ^ 21 := by
  rw [round2, if_pos (le_of_eq (abs_of_nonneg (by positivity)).symm)]

lemma round2_zero : round2 (0 : ℚ) = 0 := by
  rw [round2, if_neg (by norm_num)]
  norm_num

lemma qChars_pow21 : qChars ((10 : ℚ) ^ 21) = ['1', 'e', '+', '2', '1'] := by
  have habs : |(10 : ℚ) ^ 21| = (10 : ℚ) ^ 21 := abs_of_nonneg (by positivity)
  simp only [qChars]
  rw [if_pos (le_of_eq habs.symm)]
  rw [if_neg (by norm_num), List.nil_append, habs]
  rw [show ((10 : ℚ) ^ 21) = (((10 ^ 21 : ℕ) : ℚ)) from by push_cast; ring]
  rw [Int.floor_natCast]
  rw [show ((10 ^ 21 : ℕ) : ℤ).toNat = 10 ^ 21 from Int.toNat_natCast _]
  exact sciChars_pow21

lemma qChars_zero : qChars (0 : ℚ) = ['0'] := by
  simp only [qChars]
  rw [if_neg (by norm_num)]
  rw [show round ((0 : ℚ) * 100) = 0 from by norm_num]
  rw [if_neg (by norm_num), List.nil_append]
  rw [show ((0 : ℤ).natAbs / 100) = 0 from rfl]
  rw [show natChars 0 = ['0'] from by
    rw [natChars, if_pos (by norm_num)]
    decide]
  rw [if_pos (by decide)]
  rw [List.append_nil]

lemma pointChars_pow21 :
    pointChars false (((10 : ℚ) ^ 21), (0 : ℚ)) =
      ['[', '1', 'e', '+', '2', '1', ',', '0', ']'] := by
  rw [pointChars]
  rw [show ((((10 : ℚ) ^ 21), (0 : ℚ)) : Point).1 = (10 : ℚ) ^ 21 from rfl,
    show ((((10 : ℚ) ^ 21), (0 : ℚ)) : Point).2 = (0 : ℚ) from rfl]
  rw [round2_pow21, round2_zero, qChars_pow21, qChars_zero]
  decide

lemma shapeChars_pow21 :
    shapeChars ⟨[(((10 : ℚ) ^ 21), (0 : ℚ))], false⟩ =
      ['[', '\n', '[', '1', 'e', '+', '2', '1', ',', '0', ']', '\n', ']'] := by
  rw [shapeChars_eq _ (by simp)]
  rw [show (⟨[(((10 : ℚ) ^ 21), (0 : ℚ))], false⟩ : Shape).isClosed = false from rfl,
    show (⟨[(((10 : ℚ) ^ 21), (0 : ℚ))], false⟩ : Shape).points =
      [(((10 : ℚ) ^ 21), (0 : ℚ))] from rfl]
  rw [show pointsChars false [(((10 : ℚ) ^ 21), (0 : ℚ))] =
    [pointChars false (((10 : ℚ) ^ 21), (0 : ℚ))] from rfl]
  rw [show joinSep [',', '\n'] [pointChars false (((10 : ℚ) ^ 21), (0 : ℚ))] =
    pointChars false (((10 : ℚ) ^ 21), (0 : ℚ)) from rfl]
  rw [pointChars_pow21]
  decide

lemma shapesToChars_pow21 :
    shapesToChars [⟨[(((10 : ℚ) ^ 21), (0 : ℚ))], false⟩] =
      ['[', '\n', '[', '1', 'e', '+', '2', '1', ',', '0', ']', '\n', ']'] := by
  rw [shapesToChars]
  rw [show List.map shapeChars [(⟨[(((10 : ℚ) ^ 21), (0 : ℚ))], false⟩ : Shape)] =
    [shapeChars ⟨[(((10 : ℚ) ^ 21), (0 : ℚ))], false⟩] from rfl]
  rw [shapeChars_pow21]
  decide

lemma deserializeChars_expl :
    deserializeChars
      ['[', '\n', '[', '1', 'e', '+', '2', '1', ',', '0', ']', '\n', ']'] = [] := by
  rw [deserializeChars]
  rw [if_neg (by decide)]
  rw [show trimChars (normalizeText
      ['[', '\n', '[', '1', 'e', '+', '2', '1', ',', '0', ']', '\n', ']']) =
    ['[', '\n', '[', '1', 'e', '+', '2', '1', ',', '0', ']', '\n', ']'] from by decide]
  rw [splitBlocks_noSep _ (by decide)]
  rw [List.flatMap_cons, List.flatMap_nil]
  rw [if_neg (by decide)]
  rw [show scanTokens
      ['[', '\n', '[', '1', 'e', '+', '2', '1', ',', '0', ']', '\n', ']'] = []
    from by decide]
  rfl

/-- **C5** (original claim, refuted): the serializer renders magnitudes at or
above `10^21` in exponent notation (`"1e+21"`), which the coordinate regex
cannot re-parse; the point is dropped on deserialization and the round trip
is not byte-equal. -/
theorem serializer_claim_C5_counterexample :
    shapesToString (deserialize (shapesToString
        [(⟨[(((10 : ℚ) ^ 21), (0 : ℚ))], false⟩ : Shape)])) ≠
      shapesToString [(⟨[(((10 : ℚ) ^ 21), (0 : ℚ))], false⟩ : Shape)] := by
  have hdeser : deserialize (shapesToString
      [(⟨[(((10 : ℚ) ^ 21), (0 : ℚ))], false⟩ : Shape)]) = [] := by
    rw [show deserialize (shapesToString
        [(⟨[(((10 : ℚ) ^ 21), (0 : ℚ))], false⟩ : Shape)]) =
      deserializeChars (shapesToChars
        [(⟨[(((10 : ℚ) ^ 21), (0 : ℚ))], false⟩ : Shape)]) from rfl]
    rw [shapesToChars_pow21, deserializeChars_expl]
  rw [hdeser]
  intro hcontra
  have hdata : ([] : List Char) =
      shapesToChars [(⟨[(((10 : ℚ) ^ 21), (0 : ℚ))], false⟩ : Shape)] :=
    congrArg String.data hcontra
  rw [shapesToChars_pow21] at hdata
  exact absurd hdata (by decide)

/-- **C5** (amended): for serializer output whose coordinates all stay below
magnitude `10^21` after the two-decimal rounding — the regime where
JavaScript renders numbers in plain decimal notation — deserializing and
re-serializing yields byte-equal text: the rounding was already applied (and
pointless shapes already dropped) when the text was produced, so the second
pass changes nothing. -/
theorem serializer_roundtrip (shapes : List Shape)
    (hsmall : ∀ sh ∈ shapes, ∀ p ∈ sh.points,
      |round2 p.1| < 10 ^ 21 ∧ |round2 p.2| < 10 ^ 21) :
    shapesToString (deserialize (shapesToString shapes)) = shapesToString shapes := by
  rw [show deserialize (shapesToString shapes) =
    deserializeChars (shapesToChars shapes) from rfl]
  rw [deserializeChars_shapesToChars shapes hsmall]
  show String.mk (shapesToChars (normShapes shapes)) = String.mk (shapesToChars shapes)
  exact congrArg String.mk (shapesToChars_normShapes shapes)


theorem serializer_roundtrip_witness :
    (∀ sh ∈ [(⟨[((0 : ℚ), (0 : ℚ))], true⟩ : Shape)], ∀ p ∈ sh.points,
      |round2 p.1| < 10 ^ 21 ∧ |round2 p.2| < 10 ^ 21) ∧
    shapesToString (deserialize (shapesToString
        [(⟨[((0 : ℚ), (0 : ℚ))], true⟩ : Shape)])) =
      shapesToString [(⟨[((0 : ℚ), (0 : ℚ))], true⟩ : Shape)] := by
  have hsm : ∀ sh ∈ [(⟨[((0 : ℚ), (0 : ℚ))], true⟩ : Shape)], ∀ p ∈ sh.points,
      |round2 p.1| < 10 ^ 21 ∧ |round2 p.2| < 10 ^ 21 := by
    intro sh hsh p hp
    rw [List.mem_singleton] at hsh
    subst hsh
    simp only [List.mem_singleton] at hp
    subst hp
    constructor
    · show |round2 (0 : ℚ)| < 10 ^ 21
      rw [round2_zero]
      norm_num
    · show |round2 (0 : ℚ)| < 10 ^ 21
      rw [round2_zero]
      norm_num
  exact ⟨hsm, serializer_roundtrip _ hsm⟩
